import Mathlib

/-!
# Verification of the go-csv structural marshaling engine

Shallow embedding of the trimmer.io/go-csv package: the tokenizer
(`strings.Split` plus the quote-merging pass of `Decoder.unmarshal`), the
value converter (`setValue` / `marshalSimple`), the field binder
(`findStructField`), the type-descriptor derivation (`getTypeInfo`,
`structFieldInfo`, `addFieldInfo`), and the `Decoder`/`Encoder` pipelines
(`Decode`, `DecodeHeader`, `DecodeRecord`, `Encode`, `buildHeader`).

Modelling conventions:
* Go strings are `List Char` (`Str`); all delimiters in play are ASCII, so
  Go's byte-wise prefix/suffix/slicing operations coincide with the
  character-wise ones used here.
* Machine integers are `Int`/`Nat` with explicit range checks mirroring
  `strconv.ParseInt`/`ParseUint` bit-size bounds.
* Fallible Go functions return `Except`/`Option`; a reflect panic is the
  distinguished `GoErr.indexOutOfRange` value.
* Floating-point fields, custom (Text)(Un)Marshaler implementations, the
  map-typed decode target and pointer-typed struct fields are outside the
  model; the record types modelled are flat structs whose fields have the
  kinds enumerated in `GoVal`.
-/

deriving instance DecidableEq for Except

namespace GoCsv

/-- A Go string, modelled as its sequence of characters. -/
abbrev Str := List Char

/-- Coerce a Lean string literal to the `Str` model. -/
def strOf (s : String) : Str := s.data

/-- `unicode.IsSpace` restricted to the Latin-1 range, which is what
`strings.TrimSpace` tests for ASCII/Latin-1 input (the only inputs the
claims touch): space, \t, \n, \v, \f, \r, NEL (U+0085) and NBSP (U+00A0). -/
def isGoSpace (c : Char) : Bool :=
  c = ' ' || c = '\t' || c = '\n' || c = Char.ofNat 11 || c = Char.ofNat 12 ||
  c = '\r' || c = Char.ofNat 0x85 || c = Char.ofNat 0xA0

/-- `strings.TrimSpace`: drop leading and trailing white space. -/
def trimSpace (s : Str) : Str :=
  ((s.dropWhile isGoSpace).reverse.dropWhile isGoSpace).reverse

/-- `strings.Split(s, string(sep))` for a one-character separator. -/
def splitOnChar (sep : Char) : Str → List Str
  | [] => [[]]
  | c :: r =>
    match splitOnChar sep r with
    | [] => [[c]]
    | p :: ps => if c = sep then [] :: p :: ps else (c :: p) :: ps

/-- `strings.Join(toks, string(sep))`. -/
def joinSep (sep : Char) : List Str → Str
  | [] => []
  | [t] => t
  | t :: ts => t ++ sep :: joinSep sep ts

/-- `strings.Replace(s, "\"\"", "\"", -1)`: unescape doubled quotes
(left to right, non-overlapping). -/
def replaceQQ : Str → Str
  | [] => []
  | [c] => [c]
  | c :: d :: r =>
    if c = '"' ∧ d = '"' then '"' :: replaceQQ r
    else c :: replaceQQ (d :: r)

/-- Does the string contain two adjacent double-quote characters? -/
def hasQQ : Str → Bool
  | [] => false
  | [_] => false
  | c :: d :: r => (c = '"' && d = '"') || hasQQ (d :: r)

/-- `bufio.ScanLines` carriage-return stripping: drop one trailing `\r`. -/
def dropCR (l : Str) : Str :=
  if l.getLast? = some '\r' then l.dropLast else l

/-- The sequence of lines a `bufio.Scanner` with `ScanLines` yields for the
input: split at `\n`, drop the final empty fragment produced by a trailing
newline, strip one trailing `\r` from each line. -/
def goLines (s : Str) : List Str :=
  if s = [] then []
  else if s.getLast? = some '\n' then ((splitOnChar '\n' s).dropLast).map dropCR
  else (splitOnChar '\n' s).map dropCR

/-- Concatenation of lines, each followed by the line terminator; the shape
of the byte stream the `Encoder` emits. -/
def joinLines : List Str → Str
  | [] => []
  | l :: ls => l ++ '\n' :: joinLines ls

/-! ## Primitive value conversion (`strconv` models) -/

/-- Is the character a decimal digit? -/
def isDigitC (c : Char) : Bool := '0' ≤ c && c ≤ '9'

/-- The character for a decimal digit value. -/
def digitChar (d : Nat) : Char := Char.ofNat (48 + d)

/-- Value of a non-empty all-digit decimal string (the digit-consuming core
shared by `strconv.ParseInt`/`ParseUint` in base 10). -/
def digitsVal (s : Str) : Option Nat :=
  if s ≠ [] ∧ s.all isDigitC then
    some (s.foldl (fun a c => a * 10 + (c.toNat - 48)) 0)
  else none

/-- `strconv.ParseInt(s, 10, bits)`: optional sign, decimal digits, signed
range check. -/
def goParseInt (bits : Nat) : Str → Option Int
  | [] => none
  | c :: r =>
    if c = '+' then
      (digitsVal r).bind fun n =>
        if (n : Int) ≤ 2 ^ (bits - 1) - 1 then some (n : Int) else none
    else if c = '-' then
      (digitsVal r).bind fun n =>
        if (n : Int) ≤ 2 ^ (bits - 1) then some (-(n : Int)) else none
    else
      (digitsVal (c :: r)).bind fun n =>
        if (n : Int) ≤ 2 ^ (bits - 1) - 1 then some (n : Int) else none

/-- `strconv.ParseUint(s, 10, bits)`: no sign permitted, unsigned range
check. -/
def goParseUint (bits : Nat) (s : Str) : Option Nat :=
  (digitsVal s).bind fun n => if n < 2 ^ bits then some n else none

/-- `strconv.ParseBool`: the canonical true/false forms. -/
def goParseBool (s : Str) : Option Bool :=
  if s = strOf "1" ∨ s = strOf "t" ∨ s = strOf "T" ∨ s = strOf "true" ∨
     s = strOf "TRUE" ∨ s = strOf "True" then some true
  else if s = strOf "0" ∨ s = strOf "f" ∨ s = strOf "F" ∨ s = strOf "false" ∨
     s = strOf "FALSE" ∨ s = strOf "False" then some false
  else none

/-- Digit-production loop: emit the decimal digits of `n`, most
significant first; the first argument is recursion fuel (any bound on the
digit count, `n` itself more than suffices). -/
def natDigitsAux : Nat → Nat → Str
  | 0, _ => []
  | fuel + 1, n =>
    if n = 0 then [] else natDigitsAux fuel (n / 10) ++ [digitChar (n % 10)]

/-- Decimal digit string of a natural number, most significant digit first
(`strconv.FormatUint(n, 10)`). -/
def formatNat (n : Nat) : Str :=
  if n = 0 then strOf "0" else natDigitsAux n n

/-- `strconv.FormatInt(i, 10)`. -/
def formatInt (i : Int) : Str :=
  if i < 0 then '-' :: formatNat i.natAbs else formatNat i.natAbs

/-- `strconv.FormatBool`. -/
def formatBool (b : Bool) : Str :=
  if b then strOf "true" else strOf "false"

/-- Value of one hex digit. -/
def hexVal (c : Char) : Option Nat :=
  if '0' ≤ c ∧ c ≤ '9' then some (c.toNat - 48)
  else if 'a' ≤ c ∧ c ≤ 'f' then some (c.toNat - 87)
  else if 'A' ≤ c ∧ c ≤ 'F' then some (c.toNat - 55)
  else none

/-- `hex.DecodeString`: an even number of hex digits, or failure. -/
def hexDecode : Str → Option (List Nat)
  | [] => some []
  | [_] => none
  | a :: b :: r =>
    match hexVal a, hexVal b, hexDecode r with
    | some x, some y, some rest => some ((x * 16 + y) :: rest)
    | _, _, _ => none

/-- The UTF-8 bytes of a string (the model only feeds it ASCII). -/
def strBytes (s : Str) : List Nat := s.map Char.toNat

/-! ## The runtime value model

One `GoVal` is the contents of one struct field the engine can write.
`vFloat` (floating point) and pointer wrappers are not modelled; the extra
constructors `vIntSlice`, `vMapBadKey` and `vOther` stand for the
destination kinds `setValue` classifies as a non-byte slice, a map with a
non-string key, and every kind reaching the `default` arm of its switch. -/

inductive GoVal where
  | vStr (s : Str)
  | vInt (i : Int)
  | vUint (n : Nat)
  | vBool (b : Bool)
  | vBytes (bs : List Nat)
  | vIntSlice (xs : List Int)
  | vMapSS (m : List (Str × Str))
  | vMapBadKey (m : List (Int × Str))
  | vOther
deriving DecidableEq, Repr

/-- The field kinds corresponding to the `GoVal` constructors. -/
inductive DstKind where
  | kStr | kInt | kUint | kBool | kBytes | kIntSlice | kMapSS | kMapBadKey
  | kOther
deriving DecidableEq, Repr

/-- The zero value `reflect.New` produces for each modelled kind. -/
def zeroVal : DstKind → GoVal
  | .kStr => .vStr []
  | .kInt => .vInt 0
  | .kUint => .vUint 0
  | .kBool => .vBool false
  | .kBytes => .vBytes []
  | .kIntSlice => .vIntSlice []
  | .kMapSS => .vMapSS []
  | .kMapBadKey => .vMapBadKey []
  | .kOther => .vOther

/-- Association-list update modelling `reflect.Value.SetMapIndex`. -/
def mapSet (m : List (Str × Str)) (k v : Str) : List (Str × Str) :=
  match m with
  | [] => [(k, v)]
  | (k', v') :: rest => if k' = k then (k, v) :: rest else (k', v') :: mapSet rest k v

/-! ## Field binder and schema

`FieldD` is one entry of a cached type descriptor (`fieldInfo`) as it is
used at run time: the external name, the field's kind, and the flag bits
`fElement`/`fAny`.  A record instance is the list of its field values,
aligned positionally with its schema. -/

structure FieldD where
  name : Str
  kind : DstKind
  elemF : Bool := true
  anyF : Bool := false
deriving DecidableEq, Repr

abbrev Schema := List FieldD

abbrev Rec := List GoVal

/-- The fresh record `reflect.New(val.Type().Elem())` allocates. -/
def zeroRec (schema : Schema) : Rec := schema.map (fun f => zeroVal f.kind)

/-- `findStructField` (identical in `Decoder` and `Encoder`): scan the type
descriptor for an exact external-name match, remembering the last
catch-all-flagged field seen, and fall back to it when no name matches.
Returns the index of the resolved field.  (The pointer-allocation step is
a no-op here because pointer fields are outside the model.) -/
def findFieldAux (name : Str) : List FieldD → Nat → Option Nat → Option Nat
  | [], _, anyIdx => anyIdx
  | f :: rest, j, anyIdx =>
    let anyIdx' := if f.anyF then some j else anyIdx
    if f.name = name then some j else findFieldAux name rest (j + 1) anyIdx'

/-- Entry point of the field binder. -/
def findStructField (schema : Schema) (name : Str) : Option Nat :=
  findFieldAux name schema 0 none

/-! ## Value converter, decode direction (`setValue`) -/

/-- `setValue(dst, src, fName)`: convert one textual token into one field.
An empty token is a no-op.  The branches follow the switch on
`dst.Kind()`: string-keyed string maps get an entry `fName ↦ src`; maps
with a non-string key are rejected; integers, unsigned integers and
booleans go through the `strconv` parsers (integer widths are modelled at
64 bits, the width of every integer field in the repository); strings are
stored whitespace-trimmed; byte slices hex-decode when possible and take
the raw token bytes otherwise; a slice with a non-byte element type falls
through the `reflect.Slice` arm with no action and NO error; every other
kind reaches the `default` arm and fails. -/
def setValue (dst : GoVal) (src fName : Str) : Except Str GoVal :=
  if src = [] then .ok dst
  else
    match dst with
    | .vMapSS m => .ok (.vMapSS (mapSet m fName src))
    | .vMapBadKey _ => .error (strOf "map key type must be string")
    | .vInt _ =>
      match goParseInt 64 src with
      | some i => .ok (.vInt i)
      | none => .error (strOf "invalid integer syntax")
    | .vUint _ =>
      match goParseUint 64 src with
      | some n => .ok (.vUint n)
      | none => .error (strOf "invalid unsigned integer syntax")
    | .vBool _ =>
      match goParseBool (trimSpace src) with
      | some b => .ok (.vBool b)
      | none => .error (strOf "invalid boolean syntax")
    | .vStr _ => .ok (.vStr (trimSpace src))
    | .vBytes _ =>
      match hexDecode src with
      | some bs => .ok (.vBytes bs)
      | none => .ok (.vBytes (strBytes src))
    | .vIntSlice xs => .ok (.vIntSlice xs)
    | .vOther => .error (strOf "no method for unmarshaling type")

/-! ## Value converter, encode direction (`marshalSimple`) -/

/-- `marshalSimple(typ, val)`: format one field value as a token.  None of
the modelled primitive types implements `fmt.Stringer`, so the Stringer
branch does not fire; integers, unsigned integers, floats (not modelled),
strings and booleans format via `strconv`; byte slices pass their raw
bytes through; every other kind (including slices with non-byte elements
and maps) fails. -/
def marshalSimple : GoVal → Except Str Str
  | .vInt i => .ok (formatInt i)
  | .vUint n => .ok (formatNat n)
  | .vStr s => .ok s
  | .vBool b => .ok (formatBool b)
  | .vBytes bs => .ok (bs.map Char.ofNat)
  | _ => .error (strOf "no method for marshalling type")

/-! ## Errors -/

/-- `DecodeError`: line number, 1-based field position (0 when the whole
line is at fault), field-name hint, underlying cause. -/
structure DecErr where
  lineNo : Nat
  fieldNo : Nat
  hint : Str
  reason : Option Str
deriving DecidableEq, Repr

/-- A top-level failure of `Decode`/`Encode`: an ordinary returned error, a
wrapped `DecodeError`, or a reflect panic (which Go does not return at
all — modelled as a distinguished outcome). -/
inductive GoErr where
  | errMsg (s : Str)
  | decErr (e : DecErr)
  | indexOutOfRange
deriving DecidableEq, Repr

/-- Is the outcome an error? -/
def isErr {ε α : Type} : Except ε α → Bool
  | .error _ => true
  | .ok _ => false

/-! ## Tokenizer: the quote-merging pass of `Decoder.unmarshal` -/

/-- The quote wrapper character (`Wrapper = "\""`). -/
def wrapper : Char := '"'

/-- One pass over the split tokens, carrying the pending `merged` span and
the `combined` output, exactly as the `switch true` in
`Decoder.unmarshal`: a lone `"` token flips the pending span; a token
with both a leading and a trailing quote (length ≥ 2) is emitted as
`v[1:len(v)]` (only the LEADING quote removed — the source keeps the
trailing one); a leading-quote token opens a span; a trailing-quote token
closes and emits the span; other tokens extend an open span or pass
through.  A span still open at the end of the line is dropped. -/
def quoteMergeAux (sep : Char) : List Str → Str → List Str → List Str
  | [], _, combined => combined
  | v :: rest, merged, combined =>
    if v.length = 1 ∧ [wrapper].isPrefixOf v then
      if merged = [] then quoteMergeAux sep rest (merged ++ [sep]) combined
      else quoteMergeAux sep rest [] (combined ++ [merged ++ [sep]])
    else if 2 ≤ v.length ∧ [wrapper].isPrefixOf v ∧ [wrapper].isSuffixOf v then
      quoteMergeAux sep rest [] (combined ++ [v.drop 1])
    else if [wrapper].isPrefixOf v then
      quoteMergeAux sep rest (v.drop 1) combined
    else if [wrapper].isSuffixOf v then
      quoteMergeAux sep rest [] (combined ++ [joinSep sep [merged, v.dropLast]])
    else if merged ≠ [] then
      quoteMergeAux sep rest (joinSep sep [merged, v]) combined
    else
      quoteMergeAux sep rest merged (combined ++ [v])

/-- The tokenizer's quote-merging pass. -/
def quoteMerge (sep : Char) (tokens : List Str) : List Str :=
  quoteMergeAux sep tokens [] []

/-- Split one line on the separator and merge quoted spans: the `tokens`
the rest of `Decoder.unmarshal` works on. -/
def parseLineTokens (sep : Char) (line : Str) : List Str :=
  quoteMerge sep (splitOnChar sep line)

/-! ## Decoder -/

/-- Decoder configuration (`NewDecoder` defaults plus fluent setters). -/
structure DecCfg where
  sep : Char := ','
  comment : Char := '#'
  readHeader : Bool := true
  trim : Bool := true
  skipUnknown : Bool := true
deriving Repr

/-- The default decoder configuration (`NewDecoder`). -/
def defDec : DecCfg := {}

/-- The per-column loop of `Decoder.unmarshal`, over `(index, header name,
token)` triples. Each column: optionally trim the token, always unescape
doubled quotes, resolve the header name through the field binder (the
catch-all fallback included), skip or fail on an unresolved name
according to `skipUnknown`, and convert through `setValue`; the first
failure stops the loop.  The returned record is the state of the
in-place-mutated target when the loop stops.  (The map-typed target and
the TextUnmarshaler branches are outside the model: no modelled field
type implements TextUnmarshaler.) -/
def procCols (cfg : DecCfg) (schema : Schema) (lineNo : Nat) :
    List (Nat × Str × Str) → Rec → Rec × Option DecErr
  | [], rec => (rec, none)
  | (i, fName, tok) :: rest, rec =>
    let tok := if cfg.trim then trimSpace tok else tok
    let tok := replaceQQ tok
    match findStructField schema fName with
    | none =>
      if cfg.skipUnknown then procCols cfg schema lineNo rest rec
      else (rec, some ⟨lineNo, i + 1, fName, some (strOf "field not found")⟩)
    | some j =>
      match setValue ((rec.getD j .vOther)) tok fName with
      | .ok v => procCols cfg schema lineNo rest (rec.set j v)
      | .error e => (rec, some ⟨lineNo, i + 1, fName, some e⟩)

/-- Number the columns: `(absolute index, header name, token)`. -/
def idxCols (k : Nat) : List (Str × Str) → List (Nat × Str × Str)
  | [] => []
  | (n, t) :: rest => (k, n, t) :: idxCols (k + 1) rest

/-- `Decoder.unmarshal(val, line)`: tokenize the line, fail up front with
field position 0 when the token count differs from the header length, then
run the per-column loop.  Returns the (possibly partially written) record
together with the error, mirroring in-place mutation of the target. -/
def unmarshal (cfg : DecCfg) (schema : Schema) (headerKeys : List Str)
    (lineNo : Nat) (rec : Rec) (line : Str) : Rec × Option DecErr :=
  let tokens := parseLineTokens cfg.sep line
  if tokens.length ≠ headerKeys.length then
    (rec, some ⟨lineNo, 0, strOf "number of fields does not match header", none⟩)
  else
    procCols cfg schema lineNo (idxCols 0 (headerKeys.zip tokens)) rec

/-- `Decoder.DecodeHeader(line)`: split the line on the separator, fail on
an empty result, trim each name when trimming is enabled. -/
def decodeHeader (cfg : DecCfg) (line : Str) : Except GoErr (List Str) :=
  let hk := splitOnChar cfg.sep line
  if hk = [] then .error (.errMsg (strOf "csv: empty header"))
  else if cfg.trim then .ok (hk.map trimSpace)
  else .ok hk

/-- `Decoder.DecodeRecord(v, line)`: reject a non-pointer target, then
decode the line with the decoder's current header state. -/
def decodeRecord (cfg : DecCfg) (schema : Schema) (headerKeys : List Str)
    (lineNo : Nat) (isPtr : Bool) (rec : Rec) (line : Str) :
    Except GoErr Rec :=
  if !isPtr then .error (.errMsg (strOf "csv: non-pointer passed to DecodeRecord"))
  else
    match unmarshal cfg schema headerKeys lineNo rec line with
    | (rec', none) => .ok rec'
    | (_, some e) => .error (.decErr e)

/-- The scan loop of `Decoder.Decode`: count every line, skip blank lines
and comment lines, treat the first remaining line as the header while one
is expected and absent, and decode every other line into a fresh zero
record appended to the result. -/
def decodeLines (cfg : DecCfg) (schema : Schema) :
    List Str → List Str → Nat → List Rec → Except GoErr (List Rec)
  | [], _, _, acc => .ok acc
  | l :: rest, hk, n, acc =>
    if l = [] then decodeLines cfg schema rest hk (n + 1) acc
    else if [cfg.comment].isPrefixOf l then decodeLines cfg schema rest hk (n + 1) acc
    else if hk = [] ∧ cfg.readHeader then
      match decodeHeader cfg l with
      | .error e => .error e
      | .ok hk' => decodeLines cfg schema rest hk' (n + 1) acc
    else
      match unmarshal cfg schema hk (n + 1) (zeroRec schema) l with
      | (rec, none) => decodeLines cfg schema rest hk (n + 1) (acc ++ [rec])
      | (_, some e) => .error (.decErr e)

/-- The shape of the value handed to `Decode`, as far as its kind checks
look: a slice of records of some schema, a pointer to something, or any
other kind. -/
inductive Target where
  | slice (schema : Schema)
  | ptrTo (t : Target)
  | scalar
deriving Repr

/-- `Decoder.Decode(v)`: reject a non-pointer, dereference once, reject a
non-slice referent; when no header line is expected, pre-build the header
from the element type's descriptor keeping only fields without the
catch-all flag; then run the scan loop over the input lines. -/
def decode (cfg : DecCfg) (tgt : Target) (data : Str) : Except GoErr (List Rec) :=
  match tgt with
  | .ptrTo inner =>
    match inner with
    | .slice schema =>
      let hk0 : List Str :=
        if !cfg.readHeader then (schema.filter (fun f => !f.anyF)).map (·.name)
        else []
      decodeLines cfg schema (goLines data) hk0 0 []
    | _ => .error (.errMsg (strOf "csv: non-slice passed to Unmarshal"))
  | _ => .error (.errMsg (strOf "csv: non-pointer passed to Unmarshal"))

/-- `Unmarshal(data, v)`: a `Decode` with the default configuration. -/
def unmarshalTop (tgt : Target) (data : Str) : Except GoErr (List Rec) :=
  decode defDec tgt data

/-! ## Encoder -/

/-- Encoder configuration (`NewEncoder` defaults plus fluent setters). -/
structure EncCfg where
  sep : Char := ','
  trim : Bool := true
  writeHeader : Bool := true
deriving Repr

/-- The default encoder configuration (`NewEncoder`). -/
def defEnc : EncCfg := {}

/-- `Encoder.buildHeader` when no explicit names and no previous header
exist: every field name of the element type's descriptor, in declaration
order — the catch-all field is NOT excluded here (unlike the decoder's
implicit-header path). -/
def encHeaderOf (schema : Schema) : List Str := schema.map (·.name)

/-- The per-record token construction of `Encoder.marshal` (struct branch):
for each header name resolve the field (an unresolved name leaves the
empty token), format it with `marshalSimple`, and trim the token when
trimming is enabled. -/
def encTokens (cfg : EncCfg) (schema : Schema) (r : Rec) :
    List Str → Except Str (List Str)
  | [] => .ok []
  | fName :: rest =>
    let tok : Except Str Str :=
      match findStructField schema fName with
      | none => .ok []
      | some j =>
        let f := schema.getD j ⟨[], .kOther, true, false⟩
        if !f.elemF then .ok []
        else
          match marshalSimple (r.getD j .vOther) with
          | .ok s => .ok (if cfg.trim then trimSpace s else s)
          | .error e => .error e
    match tok with
    | .error e => .error e
    | .ok t =>
      match encTokens cfg schema r rest with
      | .error e => .error e
      | .ok ts => .ok (t :: ts)

/-- One output line: tokens joined by the separator plus the terminator
(`Encoder.output`). -/
def encLine (cfg : EncCfg) (tokens : List Str) : Str :=
  joinSep cfg.sep tokens ++ ['\n']

/-- The record loop of `Encoder.Encode`. -/
def encRecords (cfg : EncCfg) (schema : Schema) (headerKeys : List Str) :
    List Rec → Except GoErr Str
  | [] => .ok []
  | r :: rs =>
    match encTokens cfg schema r headerKeys with
    | .error e => .error (.errMsg (strOf "csv: " ++ e))
    | .ok toks =>
      match encRecords cfg schema headerKeys rs with
      | .error e => .error e
      | .ok out => .ok (encLine cfg toks ++ out)

/-- `Encoder.Encode(v)` on a slice value: `val.Index(0)` is evaluated
unconditionally to derive the header, so an empty slice panics with a
reflect index-out-of-range before anything is written; otherwise the
header is built from the element type (all descriptor names), written
when enabled, and every record is encoded in order. -/
def encode (cfg : EncCfg) (schema : Schema) (recs : List Rec) : Except GoErr Str :=
  if recs.isEmpty then .error .indexOutOfRange
  else
    let hk := encHeaderOf schema
    let hdrOut : Str := if cfg.writeHeader then encLine cfg hk else []
    match encRecords cfg schema hk recs with
    | .error e => .error e
    | .ok out => .ok (hdrOut ++ out)

/-- `Marshal(v)`: encode with the default configuration and collect the
bytes. -/
def marshalTop (schema : Schema) (recs : List Rec) : Except GoErr Str :=
  encode defEnc schema recs

/-- `Unmarshal(Marshal(recs))` into a fresh slice of the same record type:
the round-trip pipeline of the spec's first testable property. -/
def roundTrip (schema : Schema) (recs : List Rec) : Except GoErr (List Rec) :=
  match marshalTop schema recs with
  | .error e => .error e
  | .ok out => unmarshalTop (.ptrTo (.slice schema)) out

/-! ## Type descriptor derivation (`typeinfo.go`)

A `GoType` is the reflected shape of a Go type as far as `getTypeInfo`
inspects it; `GoFields` is the declared field list of a struct type, in
declaration order, each field carrying its identifier, its `csv` tag
value (`""` when absent, as `Tag.Get` reports), its `Anonymous` and
exported flags, and its type. -/

mutual
inductive GoType where
  | primT (k : DstKind) : GoType
  | structT (fs : GoFields) : GoType
  | ptrToT (t : GoType) : GoType
  | otherT : GoType
inductive GoFields where
  | nil : GoFields
  | cons (fname ftag : Str) (anon exported : Bool) (fty : GoType)
      (rest : GoFields) : GoFields
end

/-- A `fieldInfo`: structural index path, external name, flag bits. -/
structure FieldInfo where
  idx : List Nat
  name : Str
  elemF : Bool
  anyF : Bool
deriving DecidableEq, Repr

/-- `structFieldInfo(typ, f)`: split the tag on commas; a tag without
modifiers means the plain-element flags; otherwise the part before the
first comma is the name candidate, each recognized modifier (`any`) sets
its flag, and a mode of none-or-only-`any` gets the element flag added;
an empty name candidate falls back to the field identifier. -/
def structFieldInfo (idx : List Nat) (fname ftag : Str) : FieldInfo :=
  let tokens := splitOnChar ',' ftag
  match tokens with
  | [] => ⟨idx, if ftag = [] then fname else ftag, true, false⟩
  | [t] =>
    ⟨idx, if t = [] then fname else t, true, false⟩
  | t :: mods =>
    let anyF := mods.any (fun m => m = strOf "any")
    ⟨idx, if t = [] then fname else t, true, anyF⟩

/-- `addFieldInfo(typ, tinfo, newf)`: reject a field whose external name
conflicts with one already collected, append otherwise. -/
def addFieldInfo (acc : List FieldInfo) (f : FieldInfo) : Except Str (List FieldInfo) :=
  if acc.any (fun oldf => oldf.name = f.name) then
    .error (strOf "csv: field name conflict")
  else .ok (acc ++ [f])

/-- Fold `addFieldInfo` over a spliced embedded-field list. -/
def addAllFieldInfo (acc : List FieldInfo) : List FieldInfo → Except Str (List FieldInfo)
  | [] => .ok acc
  | f :: fs =>
    match addFieldInfo acc f with
    | .error e => .error e
    | .ok acc' => addAllFieldInfo acc' fs

/-- One level of pointer dereference applied to an embedded field's type
(`if t.Kind() == reflect.Ptr { t = t.Elem() }`). -/
def derefOnce : GoType → GoType
  | .ptrToT t => t
  | t => t

/-- Is the type a struct type? -/
def isStructT : GoType → Bool
  | .structT _ => true
  | _ => false

/-- The field loop of `getTypeInfo`, carrying the declaration index and the
collected descriptors: skip unexported non-anonymous fields and fields
tagged `-`; for an anonymous field whose type — after one level of pointer
dereference — is a struct, splice the recursively derived descriptors,
prefixing their index paths with the embedding offset; derive every other
field's `fieldInfo` from its tag; reject external-name conflicts.  (The
`derefOnce`-then-struct test of the source is expanded into the two
constructor patterns it accepts.) -/
def getTypeInfoFields : GoFields → Nat → List FieldInfo → Except Str (List FieldInfo)
  | .nil, _, acc => .ok acc
  | .cons fname ftag anon exported fty rest, i, acc =>
    if (!exported && !anon) || ftag = strOf "-" then
      getTypeInfoFields rest (i + 1) acc
    else if anon then
      match fty with
      | .structT inner =>
        match getTypeInfoFields inner 0 [] with
        | .error e => .error e
        | .ok innerInfos =>
          match addAllFieldInfo acc (innerInfos.map (fun f => { f with idx := i :: f.idx })) with
          | .error e => .error e
          | .ok acc' => getTypeInfoFields rest (i + 1) acc'
      | .ptrToT (.structT inner) =>
        match getTypeInfoFields inner 0 [] with
        | .error e => .error e
        | .ok innerInfos =>
          match addAllFieldInfo acc (innerInfos.map (fun f => { f with idx := i :: f.idx })) with
          | .error e => .error e
          | .ok acc' => getTypeInfoFields rest (i + 1) acc'
      | _ =>
        match addFieldInfo acc (structFieldInfo [i] fname ftag) with
        | .error e => .error e
        | .ok acc' => getTypeInfoFields rest (i + 1) acc'
    else
      match addFieldInfo acc (structFieldInfo [i] fname ftag) with
      | .error e => .error e
      | .ok acc' => getTypeInfoFields rest (i + 1) acc'

/-- `getTypeInfo(typ)`: fail on a non-struct type, then run the field
loop.  (The process-wide cache is observationally the identity and is not
modelled.) -/
def getTypeInfo : GoType → Except Str (List FieldInfo)
  | .structT fs => getTypeInfoFields fs 0 []
  | _ => .error (strOf "csv: type is not a struct")

/-- `Encoder.buildHeader(fields, val)` in the state where no header exists
yet: adopt explicit names when given, otherwise dereference the sample
value once and read the element type's descriptor names — all of them.
(The value-level nil check does not arise for the modelled values.) -/
def encBuildHeader (fields : List Str) (ty : GoType) : Except Str (List Str) :=
  if fields ≠ [] then .ok fields
  else
    match getTypeInfo (derefOnce ty) with
    | .error e => .error (strOf "csv: " ++ e)
    | .ok tinfo => .ok (tinfo.map (·.name))

/-- The external name `structFieldInfo` derives, stated the way the spec
describes it: the part of the annotation before the first comma, or the
field's own identifier when that part is empty. -/
def specFieldName (fname ftag : Str) : Str :=
  let t := (splitOnChar ',' ftag).headD []
  if t = [] then fname else t

/-- Per-field-list spec-side name enumeration: the external names of the
declared fields after embedding flattening and exclusions, in declaration
order (written independently of `getTypeInfoFields`, for the refinement
proof). -/
def specNamesF : GoFields → List Str
  | .nil => []
  | .cons fname ftag anon exported fty rest =>
    (if (!exported && !anon) || ftag = strOf "-" then []
     else if anon then
       match fty with
       | .structT inner => specNamesF inner
       | .ptrToT (.structT inner) => specNamesF inner
       | _ => [specFieldName fname ftag]
     else [specFieldName fname ftag]) ++ specNamesF rest

/-- The header the spec derives for a type. -/
def specNames : GoType → List Str
  | .structT fs => specNamesF fs
  | _ => []

/-! ## Validity conditions for the amended round-trip property

The conditions a record must satisfy for `Unmarshal ∘ Marshal` under the
default configurations to reproduce it: string fields must be unchanged
by whitespace trimming, contain no separator or line-terminator
character, carry no leading/trailing quote and no doubled quote
(otherwise the quote-merging pass or the unescaping step rewrites them);
integer fields must be in the `int64` range; the rendered line must be
non-blank and must not look like a comment line. -/

/-- A string value the round trip preserves. -/
def strOKb (s : Str) : Bool :=
  decide (trimSpace s = s) && decide (',' ∉ s) && decide ('\n' ∉ s) &&
  decide ('\r' ∉ s) && !([wrapper].isPrefixOf s) && !([wrapper].isSuffixOf s) &&
  !hasQQ s

/-- A header name the round trip preserves: non-empty, stable under
trimming, free of separator/terminator characters, not starting with the
comment character. -/
def nameOKb (n : Str) : Bool :=
  decide (n ≠ []) && decide (trimSpace n = n) && decide (',' ∉ n) &&
  decide ('\n' ∉ n) && decide ('\r' ∉ n) && !(['#'].isPrefixOf n)

/-- A field value of the matching primitive kind within range. -/
def valOKb : DstKind → GoVal → Bool
  | .kStr, .vStr s => strOKb s
  | .kInt, .vInt i => decide (-(2 ^ 63) ≤ i ∧ i ≤ 2 ^ 63 - 1)
  | .kBool, .vBool _ => true
  | _, _ => false

/-- A schema of primitive, ordinary (non-catch-all) fields with distinct
well-behaved names. -/
def schemaOKb (schema : Schema) : Bool :=
  !schema.isEmpty &&
  schema.all (fun f => nameOKb f.name && f.elemF && !f.anyF &&
    (f.kind = .kStr || f.kind = .kInt || f.kind = .kBool)) &&
  decide (schema.map (·.name)).Nodup

/-- A record instance matching the schema with round-trip-safe values. -/
def recOKb (schema : Schema) (r : Rec) : Bool :=
  r.length = schema.length &&
  (schema.zip r).all (fun p => valOKb p.1.kind p.2)

/-- The data line the encoder renders for the record is non-blank and is
not mistaken for a comment line by the decoder. -/
def recLineOKb (schema : Schema) (r : Rec) : Bool :=
  match encTokens defEnc schema r (encHeaderOf schema) with
  | .ok toks =>
    !(joinSep ',' toks).isEmpty && !(['#'].isPrefixOf (joinSep ',' toks))
  | .error _ => false

/-- The token the default-configuration encoder produces for one field of
a record (the expected value of the `encTokens` loop at that position). -/
def renderTok (v : GoVal) : Str :=
  match marshalSimple v with
  | .ok s => trimSpace s
  | .error _ => []

/-- The expected token sequence of one encoded record. -/
def renderToks (schema : Schema) (r : Rec) : List Str :=
  (schema.zip r).map (fun p => renderTok p.2)

/-- The expected data line of one encoded record. -/
def renderLine (schema : Schema) (r : Rec) : Str :=
  joinSep ',' (renderToks schema r)

/-! ## Concrete fixtures used in counterexamples and witnesses -/

/-- Schema of the test record type `A` (its float field is outside the
model): `String csv:"s"`, `Bool csv:"b"`, `Int64 csv:"i"`. -/
def schemaA : Schema :=
  [⟨strOf "s", .kStr, true, false⟩, ⟨strOf "b", .kBool, true, false⟩,
   ⟨strOf "i", .kInt, true, false⟩]

/-- The record `A{"Hello", true, 42}`. -/
def recA : Rec := [.vStr (strOf "Hello"), .vBool true, .vInt 42]

/-- A one-string-field schema. -/
def schemaS : Schema := [⟨strOf "s", .kStr, true, false⟩]

/-- The reflected shape of the test record type `B` (float field outside
the model): ordinary fields `s`, `b`, `i` plus the catch-all map field
`Any map[string]string csv:",any"`. -/
def BFields : GoFields :=
  .cons (strOf "String") (strOf "s") false true (.primT .kStr)
  (.cons (strOf "Bool") (strOf "b") false true (.primT .kBool)
  (.cons (strOf "Int") (strOf "i") false true (.primT .kInt)
  (.cons (strOf "Any") (strOf ",any") false true (.primT .kMapSS) .nil)))

/-- The struct type `B`. -/
def Bty : GoType := .structT BFields

/-- The external names of the non-catch-all descriptors of a type — the
header the claim says the encoder derives. -/
def nonAnyNames (fi : List FieldInfo) : List Str :=
  (fi.filter (fun f => !f.anyF)).map (·.name)

/-! # Theorems -/

/-! ## Generic lemmas about the column loop and the field binder -/

/-- The column loop distributes over concatenation: a prefix that ends
without error hands its record state to the suffix, a prefix error is
final. -/
theorem procCols_append (cfg : DecCfg) (schema : Schema) (ln : Nat)
    (xs ys : List (Nat × Str × Str)) (rec : Rec) :
    procCols cfg schema ln (xs ++ ys) rec =
      (match procCols cfg schema ln xs rec with
       | (r, none) => procCols cfg schema ln ys r
       | (r, some e) => (r, some e)) := by
  induction xs generalizing rec with
  | nil => simp [procCols]
  | cons x rest ih =>
    obtain ⟨i, fName, tok⟩ := x
    simp only [List.cons_append, procCols]
    cases hfind : findStructField schema fName with
    | none =>
      by_cases hsk : cfg.skipUnknown
      · simp [hsk, ih]
      · simp [hsk]
    | some j =>
      cases hsv : setValue ((rec[j]?).getD GoVal.vOther)
          (replaceQQ (if cfg.trim then trimSpace tok else tok)) fName with
      | ok v => simp [hsv, ih]
      | error e => simp [hsv]

/-- Indexing distributes over concatenation, offsetting the suffix. -/
theorem idxCols_append (xs ys : List (Str × Str)) (k : Nat) :
    idxCols k (xs ++ ys) = idxCols k xs ++ idxCols (k + xs.length) ys := by
  induction xs generalizing k with
  | nil => simp [idxCols]
  | cons x rest ih =>
    obtain ⟨n, t⟩ := x
    simp only [List.cons_append, idxCols, ih, List.length_cons]
    rw [List.append_eq, ih]
    have harith : k + 1 + rest.length = k + (rest.length + 1) := by omega
    rw [harith]

/-- The field binder scan returns its catch-all accumulator when no name
matches and no scanned field carries the catch-all flag. -/
theorem findFieldAux_none (n : Str) (fs : List FieldD) (k : Nat)
    (hna : ∀ f ∈ fs, f.anyF = false) (hunk : ∀ f ∈ fs, f.name ≠ n) :
    findFieldAux n fs k none = none := by
  induction fs generalizing k with
  | nil => rfl
  | cons f rest ih =>
    have h1 := hna f (by simp)
    have h2 := hunk f (by simp)
    simp only [findFieldAux, h1]
    rw [if_neg (by simpa using h2)]
    simp only [Bool.false_eq_true, if_false]
    exact ih (k + 1) (fun g hg => hna g (by simp [hg]))
      (fun g hg => hunk g (by simp [hg]))

/-- With no catch-all field in the descriptor, an unmatched name resolves
to nothing. -/
theorem findStructField_none (schema : Schema) (n : Str)
    (hna : ∀ f ∈ schema, f.anyF = false) (hunk : ∀ f ∈ schema, f.name ≠ n) :
    findStructField schema n = none :=
  findFieldAux_none n schema 0 hna hunk

/-! ## C2 — encoding an empty record slice -/

/-- C2: the claim says `Encode` on an empty record slice returns
successfully and writes nothing.  The source evaluates `val.Index(0)`
unconditionally to derive the header, so an empty slice makes the reflect
call panic with an index-out-of-range before anything is written: for
every configuration and schema the outcome is the panic, not a successful
empty write. -/
theorem C2_encode_empty_slice_panics (cfg : EncCfg) (schema : Schema) :
    encode cfg schema [] = .error .indexOutOfRange := by
  simp [encode]

/-! ## C3 — string fields with trimming disabled -/

/-- C3: the claim says that with trimming disabled a string field receives
its token verbatim.  With `Trim(false)`, decoding the line `" a "` for the
single string column `s` stores `"a"`: the raw token survives the loop
untrimmed, but `setValue` applies `strings.TrimSpace` to every string
destination unconditionally, so the whitespace is lost anyway. -/
theorem C3_trim_disabled_string_still_trimmed :
    unmarshal { defDec with trim := false } schemaS [strOf "s"] 1
      (zeroRec schemaS) (strOf " a ") = ([.vStr (strOf "a")], none) := by
  decide

/-! ## C4 — quote merging of a self-contained quoted token -/

/-- C4: the claim says a quoted span loses both surrounding quotes, the
token `""` becoming the empty string.  The merge pass emits a
self-contained quoted token as `v[1:len(v)]`, which strips only the
leading quote: `x,"",y` tokenizes to `x`, `"`, `y` (the closing quote
survives), while the split-and-rejoin path `a,"b,c",d` does produce the
claimed `b,c`. -/
theorem C4_self_contained_quote_keeps_closing_quote :
    parseLineTokens ',' (strOf "x,\"\",y") =
      [strOf "x", strOf "\"", strOf "y"] ∧
    parseLineTokens ',' (strOf "a,\"b,c\",d") =
      [strOf "a", strOf "b,c", strOf "d"] := by
  decide

/-! ## C5 — DecodeRecord with no header state -/

/-- C5: the claim says `DecodeRecord` with an empty header derives one
from the record's type.  The source has no such path: with the fresh
decoder's empty `headerKeys`, the three tokens of `Hello,true,42` fail
the length check against the empty header and the call returns the
field-count `DecodeError` with position 0 — no header is derived and no
field of the record is written. -/
theorem C5_decodeRecord_empty_header_fails :
    decodeRecord defDec schemaA [] 1 true (zeroRec schemaA)
      (strOf "Hello,true,42") =
      .error (.decErr ⟨1, 0, strOf "number of fields does not match header", none⟩) := by
  decide

/-! ## C7 — unsupported destination kinds in setValue -/

/-- C7 counterexample: decoding the non-empty token `x` into a slice field
with a non-byte element type does NOT fail — the `reflect.Slice` arm
matches, its byte-element guard fails, and the function falls through to
a nil return, silently leaving the field unchanged. -/
theorem C7_counterexample_intslice_silently_ignored :
    isErr (setValue (.vIntSlice []) (strOf "x") (strOf "f")) = false := by
  decide

/-- C7 (amended): for every non-empty token, a destination of a kind not
among the supported ones fails with a conversion error when it reaches
the `default` arm (modelled by `vOther`) or is a map with a non-string
key; but a slice field with a non-byte element type is silently left
unchanged, with no error. -/
theorem C7_unsupported_kind_conversion_error (src fName : Str)
    (m : List (Int × Str)) (xs : List Int) (hne : src ≠ []) :
    isErr (setValue .vOther src fName) = true ∧
    isErr (setValue (.vMapBadKey m) src fName) = true ∧
    setValue (.vIntSlice xs) src fName = .ok (.vIntSlice xs) := by
  simp [setValue, hne, isErr]

/-- C7 witness: the amended statement instantiated at the token `x`. -/
theorem C7_witness :
    (strOf "x" ≠ []) ∧
    (isErr (setValue .vOther (strOf "x") (strOf "f")) = true ∧
     isErr (setValue (.vMapBadKey []) (strOf "x") (strOf "f")) = true ∧
     setValue (.vIntSlice []) (strOf "x") (strOf "f") = .ok (.vIntSlice [])) :=
  ⟨by decide, C7_unsupported_kind_conversion_error (strOf "x") (strOf "f") [] []
    (by decide)⟩

/-! ## String lemmas for the round-trip -/

/-- Splitting never yields an empty token list. -/
theorem splitOnChar_ne_nil (sep : Char) (s : Str) : splitOnChar sep s ≠ [] := by
  cases s with
  | nil => simp [splitOnChar]
  | cons c r =>
    simp only [splitOnChar]
    cases splitOnChar sep r with
    | nil => simp
    | cons p ps =>
      by_cases h : c = sep <;> simp [h]

/-- Splitting a separator-free string yields the single token. -/
theorem splitOnChar_no_sep (sep : Char) :
    ∀ (t : Str), sep ∉ t → splitOnChar sep t = [t]
  | [], _ => rfl
  | c :: r, h => by
    have hc : c ≠ sep := by intro hc; exact h (by simp [hc])
    have hr := splitOnChar_no_sep sep r (fun hm => h (by simp [hm]))
    simp only [splitOnChar, hr]
    simp [hc]

/-- Splitting strips a separator-free prefix token. -/
theorem splitOnChar_append (sep : Char) :
    ∀ (t r : Str), sep ∉ t →
      splitOnChar sep (t ++ sep :: r) = t :: splitOnChar sep r
  | [], r, _ => by
    simp only [List.nil_append, splitOnChar]
    cases hs : splitOnChar sep r with
    | nil => exact absurd hs (splitOnChar_ne_nil sep r)
    | cons p ps => simp
  | c :: t', r, h => by
    have hc : c ≠ sep := by intro hc; exact h (by simp [hc])
    have ih := splitOnChar_append sep t' r (fun hm => h (by simp [hm]))
    simp only [List.cons_append, splitOnChar, List.append_eq]
    rw [ih]
    simp [hc]

/-- Splitting is a left inverse of joining for non-empty lists of
separator-free tokens. -/
theorem splitOnChar_joinSep (sep : Char) :
    ∀ (ts : List Str), ts ≠ [] → (∀ t ∈ ts, sep ∉ t) →
      splitOnChar sep (joinSep sep ts) = ts
  | [], hne, _ => absurd rfl hne
  | [t], _, hall => by
    simp only [joinSep]
    exact splitOnChar_no_sep sep t (hall t (by simp))
  | t :: t2 :: ts, _, hall => by
    have ih := splitOnChar_joinSep sep (t2 :: ts) (by simp)
      (fun x hx => hall x (by simp [hx]))
    simp only [joinSep]
    rw [splitOnChar_append sep t _ (hall t (by simp)), ih]

/-- `dropWhile` is the identity when the head fails the predicate. -/
theorem dropWhile_eq_self_of (p : Char → Bool) :
    ∀ (l : Str), (∀ c ∈ l, p c = false) → l.dropWhile p = l
  | [], _ => rfl
  | c :: r, h => by
    have hc := h c (by simp)
    simp [List.dropWhile, hc]

/-- Trimming is the identity on space-free strings. -/
theorem trimSpace_eq_self_of (s : Str)
    (h : ∀ c ∈ s, isGoSpace c = false) : trimSpace s = s := by
  unfold trimSpace
  rw [dropWhile_eq_self_of isGoSpace s h,
    dropWhile_eq_self_of isGoSpace s.reverse (fun c hc => h c (by simpa using hc)),
    List.reverse_reverse]

/-- A string with no adjacent doubled quotes is unchanged by the
quote-unescaping pass. -/
theorem replaceQQ_eq_self : ∀ (s : Str), hasQQ s = false → replaceQQ s = s
  | [], _ => rfl
  | [c], _ => rfl
  | c :: d :: r, h => by
    have hparts : ¬(c = '"' ∧ d = '"') ∧ hasQQ (d :: r) = false := by
      by_cases hcd : c = '"' ∧ d = '"'
      · obtain ⟨h1, h2⟩ := hcd
        subst h1
        subst h2
        simp [hasQQ] at h
      · refine ⟨hcd, ?_⟩
        rw [hasQQ] at h
        simp only [Bool.or_eq_false_iff] at h
        exact h.2
    rw [replaceQQ, if_neg hparts.1, replaceQQ_eq_self (d :: r) hparts.2]

/-- A quote-free string has no doubled quotes. -/
theorem hasQQ_eq_false_of : ∀ (s : Str), '"' ∉ s → hasQQ s = false
  | [], _ => rfl
  | [_], _ => rfl
  | c :: d :: r, h => by
    have hc : c ≠ '"' := by intro hc; exact h (by simp [hc])
    have ih := hasQQ_eq_false_of (d :: r) (fun hm => h (by simp at hm ⊢; tauto))
    rw [hasQQ, ih]
    simp [fun hcc : c = '"' => hc hcc]

/-- A one-character prefix test on a string missing that character. -/
theorem single_isPrefixOf_eq_false (x : Char) :
    ∀ (t : Str), x ∉ t → [x].isPrefixOf t = false
  | [], _ => rfl
  | c :: r, h => by
    have hc : x ≠ c := by intro hc; subst hc; exact h (by simp)
    simp [List.isPrefixOf, hc]

/-- A one-character suffix test on a string missing that character. -/
theorem single_isSuffixOf_eq_false (x : Char) (t : Str) (h : x ∉ t) :
    [x].isSuffixOf t = false := by
  unfold List.isSuffixOf
  exact single_isPrefixOf_eq_false x t.reverse (by simpa using h)

/-- A string of well-behaved characters (no space, separator, terminator
or quote) satisfies every round-trip string condition. -/
theorem strOKb_of_chars (t : Str)
    (h : ∀ c ∈ t, isGoSpace c = false ∧ c ≠ ',' ∧ c ≠ '\n' ∧ c ≠ '\r' ∧ c ≠ '"') :
    strOKb t = true := by
  have hq : '"' ∉ t := fun hm => (h _ hm).2.2.2.2 rfl
  unfold strOKb wrapper
  rw [trimSpace_eq_self_of t (fun c hc => (h c hc).1)]
  rw [single_isPrefixOf_eq_false '"' t hq, single_isSuffixOf_eq_false '"' t hq,
    hasQQ_eq_false_of t hq]
  have h1 : ',' ∉ t := fun hm => (h _ hm).2.1 rfl
  have h2 : '\n' ∉ t := fun hm => (h _ hm).2.2.1 rfl
  have h3 : '\r' ∉ t := fun hm => (h _ hm).2.2.2.1 rfl
  simp [h1, h2, h3]

/-- The components of the string-value condition. -/
theorem strOKb_parts (s : Str) (h : strOKb s = true) :
    trimSpace s = s ∧ ',' ∉ s ∧ '\n' ∉ s ∧ '\r' ∉ s ∧
    [wrapper].isPrefixOf s = false ∧ [wrapper].isSuffixOf s = false ∧
    hasQQ s = false := by
  unfold strOKb at h
  simp only [Bool.and_eq_true, decide_eq_true_eq, Bool.not_eq_true',
    Bool.not_eq_eq_eq_not, Bool.not_true] at h
  tauto

/-- The components of the header-name condition. -/
theorem nameOKb_parts (n : Str) (h : nameOKb n = true) :
    n ≠ [] ∧ trimSpace n = n ∧ ',' ∉ n ∧ '\n' ∉ n ∧ '\r' ∉ n ∧
    ['#'].isPrefixOf n = false := by
  unfold nameOKb at h
  simp only [Bool.and_eq_true, decide_eq_true_eq, Bool.not_eq_true',
    Bool.not_eq_eq_eq_not, Bool.not_true] at h
  tauto

/-! ## Line-assembly lemmas -/

/-- Joining with an extra empty final token appends one separator. -/
theorem joinSep_concat_nil (sep : Char) :
    ∀ (ts : List Str), ts ≠ [] → joinSep sep (ts ++ [[]]) = joinSep sep ts ++ [sep]
  | [], h => absurd rfl h
  | [t], _ => by simp [joinSep]
  | t :: t2 :: ts, _ => by
    have ih := joinSep_concat_nil sep (t2 :: ts) (by simp)
    simp only [List.cons_append] at ih ⊢
    simp only [joinSep]
    rw [ih]
    simp

/-- The encoder's output stream is the newline-join of its lines. -/
theorem joinLines_eq :
    ∀ (ls : List Str), ls ≠ [] → joinLines ls = joinSep '\n' ls ++ ['\n']
  | [], h => absurd rfl h
  | [l], _ => by simp [joinLines, joinSep]
  | l :: l2 :: ls, _ => by
    have ih := joinLines_eq (l2 :: ls) (by simp)
    simp only [joinLines] at ih ⊢
    rw [ih]
    simp [joinSep]

/-- The element a `getLast? = some` returns is a member. -/
theorem mem_of_getLast? (l : Str) (c : Char) (h : l.getLast? = some c) :
    c ∈ l := by
  obtain ⟨hne, heq⟩ := List.mem_getLast?_eq_getLast
    (show c ∈ l.getLast? by simpa [Option.mem_def] using h)
  rw [heq]
  exact List.getLast_mem hne

/-- The scanner's line sequence inverts the encoder's line join when no
line contains a terminator and no line ends in a carriage return. -/
theorem goLines_joinLines (ls : List Str) (hne : ls ≠ [])
    (h : ∀ l ∈ ls, '\n' ∉ l ∧ l.getLast? ≠ some '\r') :
    goLines (joinLines ls) = ls := by
  rw [joinLines_eq ls hne]
  have hs : joinSep '\n' ls ++ ['\n'] ≠ [] := by simp
  have hlast : (joinSep '\n' ls ++ ['\n']).getLast? = some '\n' := by
    simp [List.getLast?_append]
  unfold goLines
  rw [if_neg hs, if_pos hlast]
  rw [← joinSep_concat_nil '\n' ls hne]
  rw [splitOnChar_joinSep '\n' (ls ++ [[]]) (by simp)
    (by
      intro t ht
      simp only [List.mem_append, List.mem_singleton] at ht
      cases ht with
      | inl hmem => exact (h t hmem).1
      | inr hnil => simp [hnil])]
  rw [List.dropLast_concat]
  have : ∀ l ∈ ls, dropCR l = l := by
    intro l hl
    unfold dropCR
    rw [if_neg (h l hl).2]
  calc ls.map dropCR = ls.map id := List.map_congr_left this
    _ = ls := List.map_id ls

/-- Character membership in a separator-join comes from the separator or
from one of the tokens. -/
theorem mem_joinSep (sep : Char) :
    ∀ (ts : List Str) (c : Char), c ∈ joinSep sep ts →
      c = sep ∨ ∃ t ∈ ts, c ∈ t
  | [], c, h => by simp [joinSep] at h
  | [t], c, h => by
    simp only [joinSep] at h
    exact Or.inr ⟨t, by simp, h⟩
  | t :: t2 :: ts, c, h => by
    simp only [joinSep, List.mem_append, List.mem_cons] at h
    rcases h with h | h | h
    · exact Or.inr ⟨t, by simp, h⟩
    · exact Or.inl h
    · rcases mem_joinSep sep (t2 :: ts) c h with h2 | ⟨u, hu, hc⟩
      · exact Or.inl h2
      · exact Or.inr ⟨u, by simp at hu ⊢; tauto, hc⟩

/-- A single-character-prefix test only sees the first token of a join
when that token is non-empty. -/
theorem single_isPrefixOf_joinSep (x sep : Char) (t : Str) (ts : List Str)
    (htne : t ≠ []) :
    [x].isPrefixOf (joinSep sep (t :: ts)) = [x].isPrefixOf t := by
  cases ts with
  | nil => simp [joinSep]
  | cons t2 ts2 =>
    cases t with
    | nil => exact absurd rfl htne
    | cons c r => simp [joinSep, List.isPrefixOf]

/-- A non-empty first token makes the join non-empty. -/
theorem joinSep_ne_nil (sep : Char) (t : Str) (ts : List Str) (h : t ≠ []) :
    joinSep sep (t :: ts) ≠ [] := by
  cases ts with
  | nil => simpa [joinSep]
  | cons t2 ts2 =>
    simp only [joinSep]
    intro hc
    exact h (List.append_eq_nil.mp hc).1

/-! ## Decimal conversion lemmas -/

/-- The digit loop emits nothing for zero. -/
theorem natDigitsAux_zero : ∀ (fuel : Nat), natDigitsAux fuel 0 = []
  | 0 => rfl
  | _ + 1 => by simp [natDigitsAux]

/-- Character facts for a single decimal digit. -/
theorem digitChar_facts (d : Nat) (h : d < 10) :
    isDigitC (digitChar d) = true ∧ (digitChar d).toNat - 48 = d := by
  interval_cases d <;> exact ⟨by decide, by decide⟩

/-- The digit loop produces a non-empty all-digit string whose
accumulator-threaded decimal value is the number. -/
theorem natDigitsAux_spec : ∀ (fuel n : Nat), 0 < n → n ≤ fuel →
    natDigitsAux fuel n ≠ [] ∧
    (∀ c ∈ natDigitsAux fuel n, isDigitC c = true) ∧
    ∀ (a : Nat), (natDigitsAux fuel n).foldl
        (fun a c => a * 10 + (c.toNat - 48)) a =
      a * 10 ^ (natDigitsAux fuel n).length + n
  | 0, n, hpos, hle => by omega
  | fuel + 1, n, hpos, hle => by
    have hn : n ≠ 0 := Nat.pos_iff_ne_zero.mp hpos
    have hmod : n % 10 < 10 := Nat.mod_lt n (by omega)
    obtain ⟨hdig, hval⟩ := digitChar_facts (n % 10) hmod
    by_cases hq : n / 10 = 0
    · have hlt : n < 10 := by omega
      have hexp : natDigitsAux (fuel + 1) n = [digitChar (n % 10)] := by
        rw [natDigitsAux, if_neg hn, hq, natDigitsAux_zero]
        rfl
      refine ⟨by simp [hexp], ?_, ?_⟩
      · intro c hc
        rw [hexp] at hc
        simp only [List.mem_singleton] at hc
        rw [hc]
        exact hdig
      · intro a
        rw [hexp]
        simp only [List.foldl_cons, List.foldl_nil, List.length_singleton]
        rw [hval]
        omega
    · have hqpos : 0 < n / 10 := Nat.pos_of_ne_zero hq
      have hqlt : n / 10 < n := Nat.div_lt_self hpos (by omega)
      obtain ⟨ihne, ihdig, ihfold⟩ :=
        natDigitsAux_spec fuel (n / 10) hqpos (by omega)
      have hexp : natDigitsAux (fuel + 1) n =
          natDigitsAux fuel (n / 10) ++ [digitChar (n % 10)] := by
        rw [natDigitsAux, if_neg hn]
      refine ⟨by simp [hexp], ?_, ?_⟩
      · intro c hc
        rw [hexp] at hc
        simp only [List.mem_append, List.mem_singleton] at hc
        cases hc with
        | inl hm => exact ihdig c hm
        | inr he => rw [he]; exact hdig
      · intro a
        rw [hexp, List.foldl_append]
        simp only [List.foldl_cons, List.foldl_nil, List.length_append,
          List.length_singleton]
        rw [ihfold a, hval, pow_succ]
        have := Nat.div_add_mod n 10
        calc (a * 10 ^ (natDigitsAux fuel (n / 10)).length + n / 10) * 10 + n % 10
            = a * (10 ^ (natDigitsAux fuel (n / 10)).length * 10) +
              (n / 10 * 10 + n % 10) := by ring
          _ = a * (10 ^ (natDigitsAux fuel (n / 10)).length * 10) + n := by omega

/-- The decimal formatter inverts through the digit-value parser. -/
theorem digitsVal_formatNat (n : Nat) : digitsVal (formatNat n) = some n := by
  by_cases h : n = 0
  · subst h
    decide
  · have hpos := Nat.pos_of_ne_zero h
    obtain ⟨hne, hdig, hfold⟩ := natDigitsAux_spec n n hpos le_rfl
    unfold formatNat
    rw [if_neg h]
    unfold digitsVal
    rw [if_pos ⟨hne, by simpa [List.all_eq_true] using hdig⟩]
    have := hfold 0
    simpa using this

/-- The decimal formatter never produces the empty string. -/
theorem formatNat_ne_nil (n : Nat) : formatNat n ≠ [] := by
  by_cases h : n = 0
  · subst h; decide
  · unfold formatNat
    rw [if_neg h]
    exact (natDigitsAux_spec n n (Nat.pos_of_ne_zero h) le_rfl).1

/-- Every character the decimal formatter produces is a digit. -/
theorem formatNat_digits (n : Nat) : ∀ c ∈ formatNat n, isDigitC c = true := by
  by_cases h : n = 0
  · subst h; decide
  · unfold formatNat
    rw [if_neg h]
    exact (natDigitsAux_spec n n (Nat.pos_of_ne_zero h) le_rfl).2.1

/-- Every character of a formatted integer is a digit or the minus sign. -/
theorem formatInt_chars (i : Int) :
    ∀ c ∈ formatInt i, isDigitC c = true ∨ c = '-' := by
  unfold formatInt
  by_cases h : i < 0
  · rw [if_pos h]
    intro c hc
    simp only [List.mem_cons] at hc
    cases hc with
    | inl he => exact Or.inr he
    | inr hm => exact Or.inl (formatNat_digits _ c hm)
  · rw [if_neg h]
    intro c hc
    exact Or.inl (formatNat_digits _ c hc)

/-- Digit-or-minus characters are clean for every tokenizer-sensitive
character class. -/
theorem digit_char_clean (c : Char) (h : isDigitC c = true ∨ c = '-') :
    isGoSpace c = false ∧ c ≠ ',' ∧ c ≠ '\n' ∧ c ≠ '\r' ∧ c ≠ '"' := by
  cases h with
  | inr hd => subst hd; decide
  | inl hd =>
    refine ⟨?_, ?_, ?_, ?_, ?_⟩
    · by_contra hcon
      simp only [Bool.not_eq_false] at hcon
      simp only [isGoSpace, Bool.or_eq_true, decide_eq_true_eq] at hcon
      rcases hcon with (((((((rfl|rfl)|rfl)|rfl)|rfl)|rfl)|rfl)|rfl) <;>
        exact absurd hd (by decide)
    · rintro rfl; exact absurd hd (by decide)
    · rintro rfl; exact absurd hd (by decide)
    · rintro rfl; exact absurd hd (by decide)
    · rintro rfl; exact absurd hd (by decide)

/-- A formatted integer satisfies every round-trip string condition. -/
theorem strOKb_formatInt (i : Int) : strOKb (formatInt i) = true :=
  strOKb_of_chars _ (fun c hc => digit_char_clean c (formatInt_chars i c hc))

/-- A formatted integer is never empty. -/
theorem formatInt_ne_nil (i : Int) : formatInt i ≠ [] := by
  unfold formatInt
  by_cases h : i < 0
  · simp [h]
  · rw [if_neg h]
    exact formatNat_ne_nil _

/-- `ParseInt` inverts `FormatInt` on the `int64` range. -/
theorem goParseInt_formatInt (i : Int) (h1 : -(2 ^ 63) ≤ i)
    (h2 : i ≤ 2 ^ 63 - 1) : goParseInt 64 (formatInt i) = some i := by
  by_cases hneg : i < 0
  · unfold formatInt
    rw [if_pos hneg]
    have hstep : goParseInt 64 ('-' :: formatNat i.natAbs)
        = (digitsVal (formatNat i.natAbs)).bind fun n =>
            if (n : Int) ≤ 2 ^ (64 - 1) then some (-(n : Int)) else none := by
      simp [goParseInt]
    rw [hstep, digitsVal_formatNat]
    simp only [Option.some_bind]
    have habs : ((i.natAbs : Nat) : Int) = -i :=
      Int.ofNat_natAbs_of_nonpos (le_of_lt hneg)
    have h63 : (2 : Int) ^ (64 - 1) = 2 ^ 63 := by norm_num
    rw [habs, h63, if_pos (by omega)]
    congr 1
    omega
  · unfold formatInt
    rw [if_neg hneg]
    cases hfmt : formatNat i.natAbs with
    | nil => exact absurd hfmt (formatNat_ne_nil _)
    | cons c r =>
      have hc : isDigitC c = true := by
        have := formatNat_digits i.natAbs c (by rw [hfmt]; simp)
        exact this
      have hcp : ¬c = '+' := by rintro rfl; exact absurd hc (by decide)
      have hcm : ¬c = '-' := by rintro rfl; exact absurd hc (by decide)
      have hstep : goParseInt 64 (c :: r)
          = (digitsVal (c :: r)).bind fun n =>
              if (n : Int) ≤ 2 ^ (64 - 1) - 1 then some ((n : Int)) else none := by
        simp [goParseInt, hcp, hcm]
      rw [hstep, ← hfmt, digitsVal_formatNat]
      simp only [Option.some_bind]
      have habs : ((i.natAbs : Nat) : Int) = i := Int.natAbs_of_nonneg (by omega)
      have h63 : (2 : Int) ^ (64 - 1) = 2 ^ 63 := by norm_num
      rw [habs, h63, if_pos (by omega)]

/-! ## Field binder and record-list lemmas -/

/-- The binder scan finds a field at its position when no earlier field
shares its name, for any catch-all accumulator. -/
theorem findFieldAux_at (n : Str) :
    ∀ (pre : List FieldD) (f : FieldD) (post : List FieldD) (k : Nat)
      (anyIdx : Option Nat), f.name = n → (∀ g ∈ pre, g.name ≠ n) →
      findFieldAux n (pre ++ f :: post) k anyIdx = some (k + pre.length)
  | [], f, post, k, anyIdx, hf, _ => by
    simp [findFieldAux, hf]
  | g :: pre', f, post, k, anyIdx, hf, hpre => by
    have hg : ¬g.name = n := hpre g (by simp)
    have ih := findFieldAux_at n pre' f post (k + 1)
      (if g.anyF then some k else anyIdx) hf
      (fun x hx => hpre x (by simp [hx]))
    simp only [List.cons_append, findFieldAux, List.append_eq]
    rw [if_neg hg, ih]
    congr 1
    simp only [List.length_cons]
    omega

/-- The field binder resolves a name to its declaration position when the
earlier names differ. -/
theorem findStructField_at (pre : List FieldD) (f : FieldD)
    (post : List FieldD) (hpre : ∀ g ∈ pre, g.name ≠ f.name) :
    findStructField (pre ++ f :: post) f.name = some pre.length := by
  have := findFieldAux_at f.name pre f post 0 none rfl hpre
  simpa [findStructField] using this

/-- `getD` at the length of the left part reads the middle element. -/
theorem getD_append_len {α : Type} (d : α) :
    ∀ (xs : List α) (y : α) (ys : List α),
      (xs ++ y :: ys).getD xs.length d = y
  | [], y, ys => rfl
  | x :: xs', y, ys => by
    simpa using getD_append_len d xs' y ys

/-- `set` at the length of the left part replaces the middle element. -/
theorem set_append_len {α : Type} :
    ∀ (xs : List α) (y z : α) (ys : List α),
      (xs ++ y :: ys).set xs.length z = xs ++ z :: ys
  | [], y, z, ys => rfl
  | x :: xs', y, z, ys => by
    simpa using set_append_len xs' y z ys

/-! ## Value-converter round-trip lemmas -/

/-- A trim-stable string round-trips through `setValue`. -/
theorem setValue_str (s fName : Str) (h : trimSpace s = s) :
    setValue (.vStr []) s fName = .ok (.vStr s) := by
  by_cases hs : s = []
  · subst hs
    simp [setValue]
  · simp [setValue, hs, h]

/-- An in-range integer round-trips through `setValue`. -/
theorem setValue_int (i : Int) (fName : Str) (h1 : -(2 ^ 63) ≤ i)
    (h2 : i ≤ 2 ^ 63 - 1) :
    setValue (.vInt 0) (formatInt i) fName = .ok (.vInt i) := by
  have hne := formatInt_ne_nil i
  simp [setValue, hne, goParseInt_formatInt i h1 h2]

/-- A boolean round-trips through `setValue`. -/
theorem setValue_bool (b : Bool) (fName : Str) :
    setValue (.vBool false) (formatBool b) fName = .ok (.vBool b) := by
  cases b <;> rfl

/-- The per-field bundle for the round trip: the encoder's token for a
valid primitive value is a clean string, `setValue` recovers the exact
value from it, and the encode side succeeds. -/
theorem renderTok_ok (f : FieldD) (v : GoVal) (fName : Str)
    (hk : f.kind = .kStr ∨ f.kind = .kInt ∨ f.kind = .kBool)
    (hv : valOKb f.kind v = true) :
    strOKb (renderTok v) = true ∧
    setValue (zeroVal f.kind) (renderTok v) fName = .ok v ∧
    ∃ s, marshalSimple v = .ok s := by
  rcases hk with hk|hk|hk <;> rw [hk] at hv ⊢
  · cases v <;> simp [valOKb] at hv
    case vStr s =>
      obtain ⟨ht, _⟩ := strOKb_parts s hv
      have hrt : renderTok (.vStr s) = s := by
        simp [renderTok, marshalSimple, ht]
      rw [hrt]
      exact ⟨hv, setValue_str s fName ht, ⟨s, rfl⟩⟩
  · cases v <;> simp [valOKb] at hv
    case vInt i =>
      have htr : trimSpace (formatInt i) = formatInt i :=
        trimSpace_eq_self_of _
          (fun c hc => (digit_char_clean c (formatInt_chars i c hc)).1)
      have hrt : renderTok (.vInt i) = formatInt i := by
        simp [renderTok, marshalSimple, htr]
      rw [hrt]
      exact ⟨strOKb_formatInt i, setValue_int i fName hv.1 hv.2,
        ⟨formatInt i, rfl⟩⟩
  · cases v <;> simp [valOKb] at hv
    case vBool b =>
      have hrt : renderTok (.vBool b) = formatBool b := by
        cases b <;> rfl
      rw [hrt]
      refine ⟨by cases b <;> decide, setValue_bool b fName,
        ⟨formatBool b, rfl⟩⟩

/-! ## Encoder-evaluation lemmas -/

/-- The encoder's token loop over the names of a schema suffix produces
exactly the rendered tokens of the corresponding record suffix. -/
theorem encTokens_eval (schema : Schema) (r : Rec)
    (hnd : (schema.map (·.name)).Nodup)
    (hel : ∀ f ∈ schema, f.elemF = true)
    (hms : ∀ p ∈ schema.zip r, ∃ s, marshalSimple p.2 = .ok s) :
    ∀ (s2 : Schema) (s1 : Schema) (r1 r2 : Rec),
      schema = s1 ++ s2 → r = r1 ++ r2 → s1.length = r1.length →
      s2.length = r2.length →
      encTokens defEnc schema r (s2.map (·.name)) = .ok (renderToks s2 r2) := by
  intro s2
  induction s2 with
  | nil =>
    intro s1 r1 r2 hschema hr hlen1 hlen2
    have hr2 : r2 = [] := List.length_eq_zero.mp (by simpa using hlen2.symm)
    subst hr2
    simp [encTokens, renderToks]
  | cons f s2' ih =>
    intro s1 r1 r2 hschema hr hlen1 hlen2
    cases r2 with
    | nil => simp at hlen2
    | cons v r2' =>
      have hpre : ∀ g ∈ s1, g.name ≠ f.name := by
        intro g hg hcon
        rw [hschema] at hnd
        simp only [List.map_append, List.map_cons] at hnd
        rw [List.nodup_append] at hnd
        have hmem : f.name ∈ s1.map (fun x => x.name) := by
          rw [← hcon]
          exact List.mem_map_of_mem (fun x => x.name) hg
        exact hnd.2.2 hmem (by simp)
      have hfind : findStructField schema f.name = some s1.length := by
        rw [hschema]
        exact findStructField_at s1 f s2' hpre
      have hgetf : schema.getD s1.length ⟨[], .kOther, true, false⟩ = f := by
        rw [hschema]
        exact getD_append_len _ s1 f s2'
      have hgetv : r.getD s1.length .vOther = v := by
        rw [hr, hlen1]
        exact getD_append_len _ r1 v r2'
      have hmem : (f, v) ∈ schema.zip r := by
        rw [hschema, hr, List.zip_append hlen1]
        simp
      obtain ⟨s, hs⟩ := hms (f, v) hmem
      have helf : f.elemF = true := hel f (by rw [hschema]; simp)
      have hrec := ih (s1 ++ [f]) (r1 ++ [v]) r2'
        (by rw [hschema]; simp) (by rw [hr]; simp)
        (by simp [hlen1]) (by simpa using hlen2)
      simp only [List.map_cons, encTokens, hfind, hgetf, hgetv, helf, hs,
        Bool.not_true, Bool.false_eq_true, if_false, hrec]
      have : renderTok v = trimSpace s := by
        simp [renderTok, hs]
      simp [renderToks, this, defEnc]

/-- The record loop of the encoder emits the rendered line of every
record. -/
theorem encRecords_eval (schema : Schema) (hk : List Str)
    (hk_eq : hk = schema.map (·.name)) :
    ∀ (recs : List Rec),
      (∀ r ∈ recs, encTokens defEnc schema r hk = .ok (renderToks schema r)) →
      encRecords defEnc schema hk recs =
        .ok (joinLines (recs.map (renderLine schema)))
  | [], _ => by simp [encRecords, joinLines]
  | r :: rs, h => by
    have h1 := h r (by simp)
    have ih := encRecords_eval schema hk hk_eq rs (fun x hx => h x (by simp [hx]))
    simp only [encRecords, h1, ih, List.map_cons, joinLines]
    simp [encLine, renderLine, defEnc]

/-- The full encoder output for a valid non-empty record sequence: the
header line followed by one rendered line per record. -/
theorem encode_eval (schema : Schema) (recs : List Rec)
    (hnd : (schema.map (·.name)).Nodup)
    (hel : ∀ f ∈ schema, f.elemF = true)
    (hms : ∀ r ∈ recs, ∀ p ∈ schema.zip r, ∃ s, marshalSimple p.2 = .ok s)
    (hlen : ∀ r ∈ recs, r.length = schema.length)
    (hne : recs ≠ []) :
    encode defEnc schema recs =
      .ok (joinLines (joinSep ',' (schema.map (·.name)) ::
        recs.map (renderLine schema))) := by
  have henc : ∀ r ∈ recs,
      encTokens defEnc schema r (schema.map (·.name)) =
        .ok (renderToks schema r) := by
    intro r hr
    exact encTokens_eval schema r hnd hel (hms r hr) schema [] [] r rfl rfl rfl
      (hlen r hr).symm
  unfold encode
  rw [if_neg (by simpa using hne)]
  have hrecs := encRecords_eval schema (schema.map (·.name)) rfl recs
    (by simpa [encHeaderOf] using henc)
  simp only [encHeaderOf] at hrecs ⊢
  rw [hrecs]
  simp [encLine, joinLines, defEnc]

/-! ## Decoder-evaluation lemmas -/

/-- The column loop over the rendered tokens of a record-suffix writes the
record values back into the zero-filled suffix of the target. -/
theorem procCols_eval (schema : Schema) (ln : Nat)
    (hnd : (schema.map (·.name)).Nodup)
    (hna : ∀ f ∈ schema, f.anyF = false)
    (hkinds : ∀ f ∈ schema,
      f.kind = .kStr ∨ f.kind = .kInt ∨ f.kind = .kBool) :
    ∀ (s2 : Schema) (s1 : Schema) (r1 r2 : Rec),
      schema = s1 ++ s2 → s1.length = r1.length → s2.length = r2.length →
      (∀ p ∈ s2.zip r2, valOKb p.1.kind p.2 = true) →
      procCols defDec schema ln
        (idxCols s1.length ((s2.map (·.name)).zip (renderToks s2 r2)))
        (r1 ++ zeroRec s2) = (r1 ++ r2, none) := by
  intro s2
  induction s2 with
  | nil =>
    intro s1 r1 r2 hschema hlen1 hlen2 hval
    have hr2 : r2 = [] := List.length_eq_zero.mp (by simpa using hlen2.symm)
    subst hr2
    simp [idxCols, procCols, zeroRec]
  | cons f s2' ih =>
    intro s1 r1 r2 hschema hlen1 hlen2 hval
    cases r2 with
    | nil => simp at hlen2
    | cons v r2' =>
      have hpre : ∀ g ∈ s1, g.name ≠ f.name := by
        intro g hg hcon
        rw [hschema] at hnd
        simp only [List.map_append, List.map_cons] at hnd
        rw [List.nodup_append] at hnd
        have hmem : f.name ∈ s1.map (fun x => x.name) := by
          rw [← hcon]
          exact List.mem_map_of_mem (fun x => x.name) hg
        exact hnd.2.2 hmem (by simp)
      have hfind : findStructField schema f.name = some s1.length := by
        rw [hschema]
        exact findStructField_at s1 f s2' hpre
      have hfmem : f ∈ schema := by rw [hschema]; simp
      obtain ⟨hstr, hsv, _⟩ := renderTok_ok f v f.name (hkinds f hfmem)
        (hval (f, v) (by simp))
      obtain ⟨htrim, _, _, _, _, _, hqq⟩ := strOKb_parts _ hstr
      have hgetz : (r1 ++ zeroRec (f :: s2')).getD s1.length .vOther
          = zeroVal f.kind := by
        rw [zeroRec, List.map_cons, hlen1]
        exact getD_append_len _ r1 _ _
      have hset : (r1 ++ zeroRec (f :: s2')).set s1.length v
          = (r1 ++ [v]) ++ zeroRec s2' := by
        rw [zeroRec, List.map_cons, hlen1, set_append_len]
        simp [zeroRec]
      have hrec := ih (s1 ++ [f]) (r1 ++ [v]) r2'
        (by rw [hschema]; simp) (by simp [hlen1]) (by simpa using hlen2)
        (fun p hp => hval p (by simp [hp]))
      simp only [renderToks, List.zip_cons_cons, List.map_cons, idxCols,
        procCols, hfind, hgetz]
      rw [show (if defDec.trim = true then trimSpace (renderTok v)
          else renderTok v) = renderTok v from by simp [defDec, htrim]]
      rw [replaceQQ_eq_self _ hqq]
      simp only [hsv, hset]
      have hlen' : (s1 ++ [f]).length = s1.length + 1 := by simp
      rw [hlen'] at hrec
      simpa [renderToks, List.zip, List.append_assoc] using hrec

/-- The quote-merging pass is the identity on tokens without leading or
trailing quote characters. -/
theorem quoteMergeAux_clean (sep : Char) :
    ∀ (ts : List Str) (acc : List Str),
      (∀ t ∈ ts, [wrapper].isPrefixOf t = false ∧
        [wrapper].isSuffixOf t = false) →
      quoteMergeAux sep ts [] acc = acc ++ ts
  | [], acc, _ => by simp [quoteMergeAux]
  | v :: rest, acc, h => by
    obtain ⟨hp, hs⟩ := h v (by simp)
    have ih := quoteMergeAux_clean sep rest (acc ++ [v])
      (fun t ht => h t (by simp [ht]))
    rw [quoteMergeAux]
    rw [if_neg (by simp [hp]), if_neg (by simp [hp]), if_neg (by simp [hp]),
      if_neg (by simp [hs]), if_neg (by simp)]
    rw [ih]
    simp

/-- Every token the encoder renders for a valid record is a clean
round-trip string. -/
theorem renderToks_strOK (schema : Schema) (r : Rec)
    (hkinds : ∀ f ∈ schema,
      f.kind = .kStr ∨ f.kind = .kInt ∨ f.kind = .kBool)
    (hval : ∀ p ∈ schema.zip r, valOKb p.1.kind p.2 = true) :
    ∀ t ∈ renderToks schema r, strOKb t = true := by
  intro t ht
  simp only [renderToks, List.mem_map] at ht
  obtain ⟨⟨f, v⟩, hp, rfl⟩ := ht
  exact (renderTok_ok f v f.name (hkinds f (List.of_mem_zip hp).1)
    (hval _ hp)).1

/-- The tokenizer recovers the encoder's tokens from a rendered line. -/
theorem parseLineTokens_renderLine (schema : Schema) (r : Rec)
    (hsne : schema ≠ []) (hlen : r.length = schema.length)
    (htoks : ∀ t ∈ renderToks schema r, strOKb t = true) :
    parseLineTokens ',' (renderLine schema r) = renderToks schema r := by
  have hlen2 : (renderToks schema r).length = schema.length := by
    simp [renderToks, List.length_zip, hlen]
  have hne2 : renderToks schema r ≠ [] := by
    intro hcon
    rw [hcon] at hlen2
    exact hsne (List.length_eq_zero.mp hlen2.symm)
  unfold parseLineTokens renderLine quoteMerge
  rw [splitOnChar_joinSep ',' _ hne2
    (fun t ht => (strOKb_parts t (htoks t ht)).2.1)]
  rw [quoteMergeAux_clean ',' _ []
    (fun t ht => ⟨(strOKb_parts t (htoks t ht)).2.2.2.2.1,
      (strOKb_parts t (htoks t ht)).2.2.2.2.2.1⟩)]
  simp

/-- Decoding one rendered line into a fresh zero record recovers the
original record with no error, for any line number. -/
theorem unmarshal_renderLine (schema : Schema) (r : Rec) (ln : Nat)
    (hnd : (schema.map (·.name)).Nodup)
    (hna : ∀ f ∈ schema, f.anyF = false)
    (hkinds : ∀ f ∈ schema,
      f.kind = .kStr ∨ f.kind = .kInt ∨ f.kind = .kBool)
    (hval : ∀ p ∈ schema.zip r, valOKb p.1.kind p.2 = true)
    (hsne : schema ≠ []) (hlen : r.length = schema.length) :
    unmarshal defDec schema (schema.map (·.name)) ln (zeroRec schema)
      (renderLine schema r) = (r, none) := by
  have hparse := parseLineTokens_renderLine schema r hsne hlen
    (renderToks_strOK schema r hkinds hval)
  have hlen2 : (renderToks schema r).length = schema.length := by
    simp [renderToks, List.length_zip, hlen]
  unfold unmarshal
  rw [show defDec.sep = ',' from rfl, hparse]
  rw [if_neg (by simp [hlen2])]
  have := procCols_eval schema ln hnd hna hkinds schema [] [] r rfl rfl
    hlen.symm hval
  simpa [zeroRec] using this

/-- The header-decoding step recovers clean names from their joined
line. -/
theorem decodeHeader_names (names : List Str) (hne : names ≠ [])
    (hok : ∀ n ∈ names, nameOKb n = true) :
    decodeHeader defDec (joinSep ',' names) = .ok names := by
  unfold decodeHeader
  rw [show defDec.sep = ',' from rfl]
  rw [splitOnChar_joinSep ',' names hne
    (fun n hn => (nameOKb_parts n (hok n hn)).2.2.1)]
  rw [if_neg hne, if_pos (show defDec.trim = true from rfl)]
  congr 1
  calc names.map trimSpace
      = names.map id :=
        List.map_congr_left (fun n hn => (nameOKb_parts n (hok n hn)).2.1)
    _ = names := List.map_id names

/-- Characters of a separator-join of terminator-free tokens: no line
terminator inside, no trailing carriage return. -/
theorem joinSep_line_clean (ts : List Str)
    (h : ∀ t ∈ ts, '\n' ∉ t ∧ '\r' ∉ t) :
    '\n' ∉ joinSep ',' ts ∧ (joinSep ',' ts).getLast? ≠ some '\r' := by
  constructor
  · intro hm
    rcases mem_joinSep ',' ts '\n' hm with h1 | ⟨t, ht, hc⟩
    · exact absurd h1 (by decide)
    · exact (h t ht).1 hc
  · intro hl
    have hm := mem_of_getLast? _ _ hl
    rcases mem_joinSep ',' ts '\r' hm with h1 | ⟨t, ht, hc⟩
    · exact absurd h1 (by decide)
    · exact (h t ht).2 hc

/-- The scan loop consumes one rendered line per record and appends the
decoded records in order. -/
theorem decodeLines_records (schema : Schema) (names : List Str) :
    ∀ (rs : List Rec) (acc : List Rec) (n : Nat), names ≠ [] →
      (∀ r ∈ rs, renderLine schema r ≠ [] ∧
        ['#'].isPrefixOf (renderLine schema r) = false ∧
        ∀ ln, unmarshal defDec schema names ln (zeroRec schema)
          (renderLine schema r) = (r, none)) →
      decodeLines defDec schema (rs.map (renderLine schema)) names n acc =
        .ok (acc ++ rs)
  | [], acc, n, _, _ => by simp [decodeLines]
  | r :: rs', acc, n, hn, h => by
    obtain ⟨hlne, hnc, hum⟩ := h r (by simp)
    have ih := decodeLines_records schema names rs' (acc ++ [r]) (n + 1) hn
      (fun x hx => h x (by simp [hx]))
    simp only [List.map_cons, decodeLines]
    rw [if_neg hlne]
    rw [if_neg (by rw [show defDec.comment = '#' from rfl]; simp [hnc])]
    rw [if_neg (by simp [hn])]
    rw [hum (n + 1)]
    simpa using ih

/-! ## Lemmas about the type-descriptor derivation -/

/-- The external name `structFieldInfo` computes is the one the spec
formula gives. -/
theorem structFieldInfo_name (idx : List Nat) (fname ftag : Str) :
    (structFieldInfo idx fname ftag).name = specFieldName fname ftag := by
  unfold structFieldInfo specFieldName
  cases hsp : splitOnChar ',' ftag with
  | nil => exact absurd hsp (splitOnChar_ne_nil ',' ftag)
  | cons t mods =>
    cases mods with
    | nil => simp
    | cons m ms => simp

/-- A successful `addFieldInfo` appends the new descriptor. -/
theorem addFieldInfo_ok (acc : List FieldInfo) (f : FieldInfo)
    (out : List FieldInfo) (h : addFieldInfo acc f = .ok out) :
    out = acc ++ [f] := by
  unfold addFieldInfo at h
  by_cases hc : acc.any (fun oldf => oldf.name = f.name)
  · simp [hc] at h
  · simp [hc] at h
    exact h.symm

/-- A successful splice appends all the spliced descriptors in order. -/
theorem addAllFieldInfo_ok (l : List FieldInfo) :
    ∀ acc out, addAllFieldInfo acc l = .ok out → out = acc ++ l := by
  induction l with
  | nil =>
    intro acc out h
    simp [addAllFieldInfo] at h
    simp [h.symm]
  | cons f rest ih =>
    intro acc out h
    unfold addAllFieldInfo at h
    cases ha : addFieldInfo acc f with
    | error e => rw [ha] at h; exact absurd h (by simp)
    | ok acc' =>
      rw [ha] at h
      have h1 := addFieldInfo_ok acc f acc' ha
      have h2 := ih acc' out h
      simp [h2, h1]

/-- The names collected by the field loop of `getTypeInfo` are the
already-collected names followed by the spec-side enumeration of the
remaining fields (in declaration order, embedded structs flattened in
place, exclusions skipped). -/
theorem getTypeInfoFields_names : ∀ (fs : GoFields) (i : Nat)
    (acc out : List FieldInfo), getTypeInfoFields fs i acc = .ok out →
    out.map (·.name) = acc.map (·.name) ++ specNamesF fs
  | .nil, i, acc, out, h => by
    simp [getTypeInfoFields] at h
    simp [h.symm, specNamesF]
  | .cons fname ftag anon exported fty rest, i, acc, out, h => by
    have hsplice : ∀ inner : GoFields, sizeOf inner < sizeOf fty →
        (match getTypeInfoFields inner 0 [] with
         | .error e => .error e
         | .ok innerInfos =>
           match addAllFieldInfo acc
               (innerInfos.map (fun f => { f with idx := i :: f.idx })) with
           | .error e => .error e
           | .ok acc' =>
             getTypeInfoFields rest (i + 1) acc' : Except Str (List FieldInfo))
          = .ok out →
        out.map (·.name) =
          acc.map (·.name) ++ (specNamesF inner ++ specNamesF rest) := by
      intro inner hsz hmh
      split at hmh
      · exact absurd hmh (by simp)
      · rename_i innerInfos hin
        split at hmh
        · exact absurd hmh (by simp)
        · rename_i acc' hadd
          have h2 := getTypeInfoFields_names rest (i + 1) acc' out hmh
          have h3 := addAllFieldInfo_ok _ _ _ hadd
          have h4 := getTypeInfoFields_names inner 0 [] innerInfos hin
          simp only [List.map_nil, List.nil_append] at h4
          rw [h2, h3, List.map_append, List.map_map]
          rw [show ((fun x : FieldInfo => x.name) ∘ fun f : FieldInfo =>
              { idx := i :: f.idx, name := f.name, elemF := f.elemF,
                anyF := f.anyF }) = (fun x : FieldInfo => x.name) from rfl]
          rw [h4]
          simp
    have hplain :
        (match addFieldInfo acc (structFieldInfo [i] fname ftag) with
         | .error e => .error e
         | .ok acc' =>
           getTypeInfoFields rest (i + 1) acc' : Except Str (List FieldInfo))
          = .ok out →
        out.map (·.name) =
          acc.map (·.name) ++ ([specFieldName fname ftag] ++ specNamesF rest) := by
      intro hmh
      split at hmh
      · exact absurd hmh (by simp)
      · rename_i acc' ha
        have h2 := getTypeInfoFields_names rest (i + 1) acc' out hmh
        have h3 := addFieldInfo_ok _ _ _ ha
        simp [h2, h3, structFieldInfo_name]
    have hskipcase : getTypeInfoFields rest (i + 1) acc = .ok out →
        out.map (·.name) = acc.map (·.name) ++ specNamesF rest := by
      intro hmh
      exact getTypeInfoFields_names rest (i + 1) acc out hmh
    cases fty with
    | structT inner =>
      simp only [getTypeInfoFields] at h
      simp only [specNamesF]
      by_cases hskip : (!exported && !anon || decide (ftag = strOf "-")) = true
      · rw [if_pos hskip] at h
        rw [if_pos hskip]
        simpa using hskipcase h
      · rw [if_neg hskip] at h
        rw [if_neg hskip]
        by_cases hanon : anon = true
        · rw [if_pos hanon] at h
          rw [if_pos hanon]
          exact hsplice inner (by simp_arith) h
        · rw [if_neg hanon] at h
          rw [if_neg hanon]
          simpa using hplain h
    | ptrToT t2 =>
      cases t2 with
      | structT inner =>
        simp only [getTypeInfoFields] at h
        simp only [specNamesF]
        by_cases hskip : (!exported && !anon || decide (ftag = strOf "-")) = true
        · rw [if_pos hskip] at h
          rw [if_pos hskip]
          simpa using hskipcase h
        · rw [if_neg hskip] at h
          rw [if_neg hskip]
          by_cases hanon : anon = true
          · rw [if_pos hanon] at h
            rw [if_pos hanon]
            exact hsplice inner (by simp_arith) h
          · rw [if_neg hanon] at h
            rw [if_neg hanon]
            simpa using hplain h
      | primT k =>
        simp only [getTypeInfoFields] at h
        simp only [specNamesF]
        by_cases hskip : (!exported && !anon || decide (ftag = strOf "-")) = true
        · rw [if_pos hskip] at h
          rw [if_pos hskip]
          simpa using hskipcase h
        · rw [if_neg hskip] at h
          rw [if_neg hskip]
          by_cases hanon : anon = true
          · rw [if_pos hanon] at h
            rw [if_pos hanon]
            simpa using hplain h
          · rw [if_neg hanon] at h
            rw [if_neg hanon]
            simpa using hplain h
      | ptrToT t3 =>
        simp only [getTypeInfoFields] at h
        simp only [specNamesF]
        by_cases hskip : (!exported && !anon || decide (ftag = strOf "-")) = true
        · rw [if_pos hskip] at h
          rw [if_pos hskip]
          simpa using hskipcase h
        · rw [if_neg hskip] at h
          rw [if_neg hskip]
          by_cases hanon : anon = true
          · rw [if_pos hanon] at h
            rw [if_pos hanon]
            simpa using hplain h
          · rw [if_neg hanon] at h
            rw [if_neg hanon]
            simpa using hplain h
      | otherT =>
        simp only [getTypeInfoFields] at h
        simp only [specNamesF]
        by_cases hskip : (!exported && !anon || decide (ftag = strOf "-")) = true
        · rw [if_pos hskip] at h
          rw [if_pos hskip]
          simpa using hskipcase h
        · rw [if_neg hskip] at h
          rw [if_neg hskip]
          by_cases hanon : anon = true
          · rw [if_pos hanon] at h
            rw [if_pos hanon]
            simpa using hplain h
          · rw [if_neg hanon] at h
            rw [if_neg hanon]
            simpa using hplain h
    | primT k =>
      simp only [getTypeInfoFields] at h
      simp only [specNamesF]
      by_cases hskip : (!exported && !anon || decide (ftag = strOf "-")) = true
      · rw [if_pos hskip] at h
        rw [if_pos hskip]
        simpa using hskipcase h
      · rw [if_neg hskip] at h
        rw [if_neg hskip]
        by_cases hanon : anon = true
        · rw [if_pos hanon] at h
          rw [if_pos hanon]
          simpa using hplain h
        · rw [if_neg hanon] at h
          rw [if_neg hanon]
          simpa using hplain h
    | otherT =>
      simp only [getTypeInfoFields] at h
      simp only [specNamesF]
      by_cases hskip : (!exported && !anon || decide (ftag = strOf "-")) = true
      · rw [if_pos hskip] at h
        rw [if_pos hskip]
        simpa using hskipcase h
      · rw [if_neg hskip] at h
        rw [if_neg hskip]
        by_cases hanon : anon = true
        · rw [if_pos hanon] at h
          rw [if_pos hanon]
          simpa using hplain h
        · rw [if_neg hanon] at h
          rw [if_neg hanon]
          simpa using hplain h
termination_by fs _ _ _ _ => sizeOf fs
decreasing_by
  all_goals simp_arith
  all_goals omega

/-- The names of a successfully derived type descriptor are the spec-side
name enumeration of the type. -/
theorem getTypeInfo_names (t : GoType) (fi : List FieldInfo)
    (h : getTypeInfo t = .ok fi) : fi.map (·.name) = specNames t := by
  cases t with
  | structT fs =>
    simpa [specNames] using getTypeInfoFields_names fs 0 [] fi h
  | primT k => exact absurd h (by simp [getTypeInfo])
  | ptrToT t2 => exact absurd h (by simp [getTypeInfo])
  | otherT => exact absurd h (by simp [getTypeInfo])

/-! ## C6 — header derivation by the encoder -/

/-- C6 counterexample: for the catch-all-carrying record type `B` the
encoder-derived header is `s,b,i,Any` — it contains the catch-all field's
external name, whereas the claim predicts the catch-all-free `s,b,i`. -/
theorem C6_counterexample_catch_all_in_header :
    encBuildHeader [] Bty = .ok [strOf "s", strOf "b", strOf "i", strOf "Any"] ∧
    (getTypeInfo Bty).map nonAnyNames = .ok [strOf "s", strOf "b", strOf "i"] ∧
    encBuildHeader [] Bty ≠ (getTypeInfo Bty).map nonAnyNames := by
  decide

/-- C6 (amended): whenever the encoder derives a header from a sample
value with no explicit names, the header is exactly the external names of
ALL descriptors of the (once-dereferenced) sample type — the declared
fields after embedding flattening and exclusions, in declaration order,
with the catch-all field included, not excluded. -/
theorem C6_derived_header_is_spec_names (ty : GoType) (names : List Str)
    (h : encBuildHeader [] ty = .ok names) :
    names = specNames (derefOnce ty) := by
  unfold encBuildHeader at h
  rw [if_neg (by simp)] at h
  cases hti : getTypeInfo (derefOnce ty) with
  | error e => rw [hti] at h; exact absurd h (by simp)
  | ok fi =>
    rw [hti] at h
    have h2 := getTypeInfo_names (derefOnce ty) fi hti
    simp only [Except.ok.injEq] at h
    rw [← h]
    exact h2

/-- C6 witness: the amended statement instantiated at the type `B`. -/
theorem C6_witness :
    encBuildHeader [] Bty = .ok [strOf "s", strOf "b", strOf "i", strOf "Any"] ∧
    [strOf "s", strOf "b", strOf "i", strOf "Any"] = specNames (derefOnce Bty) :=
  ⟨by decide,
   C6_derived_header_is_spec_names Bty
     [strOf "s", strOf "b", strOf "i", strOf "Any"] (by decide)⟩

/-! ## C8 — unknown header names and the skip-unknown policy -/

/-- C8: for every decoder, schema without a catch-all field and header
containing a name `n` (at position `h1.length`) that matches no field:
with skip-unknown disabled, decoding fails with the `DecodeError` whose
reason is `field not found` (at that column's 1-based position, provided
the preceding columns succeed, their final record state being returned);
with skip-unknown enabled, decoding the line equals running the column
loop with that column deleted — the column is ignored and every other
column is processed exactly as usual. -/
theorem C8_unknown_header_name (cfg : DecCfg) (schema : Schema)
    (lineNo : Nat) (rec : Rec) (h1 h2 t1 t2 : List Str) (n t line : Str)
    (hlen1 : h1.length = t1.length) (hlen2 : h2.length = t2.length)
    (hna : ∀ f ∈ schema, f.anyF = false)
    (hunk : ∀ f ∈ schema, f.name ≠ n)
    (hparse : parseLineTokens cfg.sep line = t1 ++ t :: t2) :
    (∀ rec1, procCols { cfg with skipUnknown := false } schema lineNo
        (idxCols 0 (h1.zip t1)) rec = (rec1, none) →
      unmarshal { cfg with skipUnknown := false } schema (h1 ++ n :: h2)
          lineNo rec line =
        (rec1, some ⟨lineNo, h1.length + 1, n, some (strOf "field not found")⟩)) ∧
    unmarshal { cfg with skipUnknown := true } schema (h1 ++ n :: h2)
        lineNo rec line =
      procCols { cfg with skipUnknown := true } schema lineNo
        (idxCols 0 (h1.zip t1) ++ idxCols (h1.length + 1) (h2.zip t2)) rec := by
  have hfind := findStructField_none schema n hna hunk
  have hzip : (h1 ++ n :: h2).zip (t1 ++ t :: t2)
      = h1.zip t1 ++ (n, t) :: h2.zip t2 := by
    rw [List.zip_append hlen1, List.zip_cons_cons]
  have hlz : (h1.zip t1).length = h1.length := by
    simp [List.length_zip, hlen1]
  have key : ∀ sk : Bool,
      unmarshal { cfg with skipUnknown := sk } schema (h1 ++ n :: h2)
          lineNo rec line =
        procCols { cfg with skipUnknown := sk } schema lineNo
          (idxCols 0 (h1.zip t1) ++
            ((h1.length, n, t) :: idxCols (h1.length + 1) (h2.zip t2))) rec := by
    intro sk
    have hlen : (parseLineTokens cfg.sep line).length = (h1 ++ n :: h2).length := by
      rw [hparse]
      simp [hlen1, hlen2]
    unfold unmarshal
    simp only [hparse, hzip]
    rw [if_neg (by simp only [← hparse]; omega)]
    rw [idxCols_append, hlz]
    simp [idxCols]
  refine ⟨?_, ?_⟩
  · intro rec1 hrec1
    rw [key false, procCols_append, hrec1]
    simp [procCols, hfind]
  · rw [key true, procCols_append, procCols_append]
    cases hpre : procCols { cfg with skipUnknown := true } schema lineNo
        (idxCols 0 (h1.zip t1)) rec with
    | mk r e =>
      cases e with
      | none => simp [procCols, hfind]
      | some err => rfl

/-- C8 witness: schema with the single string field `s`, header `s,x`
with `x` unknown, line `v,u`. -/
theorem C8_witness :
    ([strOf "s"].length = [strOf "v"].length) ∧
    (∀ f ∈ schemaS, f.anyF = false) ∧
    (∀ f ∈ schemaS, f.name ≠ strOf "x") ∧
    (parseLineTokens defDec.sep (strOf "v,u") = [strOf "v"] ++ strOf "u" :: []) ∧
    unmarshal { defDec with skipUnknown := false } schemaS
        ([strOf "s"] ++ strOf "x" :: []) 2 (zeroRec schemaS) (strOf "v,u") =
      ([.vStr (strOf "v")],
       some ⟨2, 2, strOf "x", some (strOf "field not found")⟩) ∧
    unmarshal { defDec with skipUnknown := true } schemaS
        ([strOf "s"] ++ strOf "x" :: []) 2 (zeroRec schemaS) (strOf "v,u") =
      procCols { defDec with skipUnknown := true } schemaS 2
        (idxCols 0 ([strOf "s"].zip [strOf "v"]) ++
          idxCols ([strOf "s"].length + 1) (([] : List Str).zip [])) (zeroRec schemaS) :=
  ⟨by decide, by decide, by decide, by decide,
   (C8_unknown_header_name defDec schemaS 2 (zeroRec schemaS) [strOf "s"] []
      [strOf "v"] [] (strOf "x") (strOf "u") (strOf "v,u") (by decide)
      (by decide) (by decide) (by decide) (by decide)).1
     [.vStr (strOf "v")] (by decide),
   (C8_unknown_header_name defDec schemaS 2 (zeroRec schemaS) [strOf "s"] []
      [strOf "v"] [] (strOf "x") (strOf "u") (strOf "v,u") (by decide)
      (by decide) (by decide) (by decide) (by decide)).2⟩

/-! ## C9 — field-count mismatch -/

/-- C9: for every decoder configuration, non-empty header and line whose
post-merge token count differs from the header length, `unmarshal` fails
with the field-count `DecodeError` carrying field position 0, and the
target record is returned exactly as it was — no field has been
assigned. -/
theorem C9_count_mismatch_field_zero (cfg : DecCfg) (schema : Schema)
    (hk : List Str) (lineNo : Nat) (rec : Rec) (line : Str) (hne : hk ≠ [])
    (hmm : (parseLineTokens cfg.sep line).length ≠ hk.length) :
    unmarshal cfg schema hk lineNo rec line =
      (rec, some ⟨lineNo, 0, strOf "number of fields does not match header", none⟩) := by
  simp [unmarshal, hmm]

/-- C9 witness: a two-name header against a one-token line. -/
theorem C9_witness :
    ([strOf "s", strOf "b"] ≠ ([] : List Str)) ∧
    ((parseLineTokens defDec.sep (strOf "a")).length ≠
      [strOf "s", strOf "b"].length) ∧
    unmarshal defDec schemaA [strOf "s", strOf "b"] 3 (zeroRec schemaA)
      (strOf "a") =
      (zeroRec schemaA,
       some ⟨3, 0, strOf "number of fields does not match header", none⟩) :=
  ⟨by decide, by decide,
   C9_count_mismatch_field_zero defDec schemaA [strOf "s", strOf "b"] 3
     (zeroRec schemaA) (strOf "a") (by decide) (by decide)⟩

/-! ## C10 — Decode target kind checks -/

/-- C10: for every target value that is not a pointer whose referent is a
slice, `Decode` (and hence `Unmarshal`) returns an error, and the outcome
is independent of the input data — no input is read and no record is
decoded. -/
theorem C10_decode_requires_ptr_to_slice (cfg : DecCfg) (tgt : Target)
    (data : Str) (h : ∀ schema, tgt ≠ Target.ptrTo (.slice schema)) :
    isErr (decode cfg tgt data) = true ∧
    decode cfg tgt data = decode cfg tgt [] := by
  cases tgt with
  | slice s => simp [decode, isErr]
  | scalar => simp [decode, isErr]
  | ptrTo inner =>
    cases inner with
    | slice s => exact absurd rfl (h s)
    | scalar => simp [decode, isErr]
    | ptrTo inner2 => simp [decode, isErr]

/-- C10 witness: a non-pointer target with non-trivial input data. -/
theorem C10_witness :
    (∀ schema, Target.scalar ≠ Target.ptrTo (.slice schema)) ∧
    (isErr (decode defDec .scalar (strOf "s\na,b")) = true ∧
     decode defDec .scalar (strOf "s\na,b") = decode defDec .scalar []) :=
  ⟨fun _ h => Target.noConfusion h,
   C10_decode_requires_ptr_to_slice defDec .scalar (strOf "s\na,b")
     (fun _ h => Target.noConfusion h)⟩

/-! ## C1 — the round trip -/

/-- The components of the schema validity condition. -/
theorem schemaOKb_parts (schema : Schema) (h : schemaOKb schema = true) :
    schema ≠ [] ∧ (schema.map (·.name)).Nodup ∧
    ∀ f ∈ schema, nameOKb f.name = true ∧ f.elemF = true ∧ f.anyF = false ∧
      (f.kind = .kStr ∨ f.kind = .kInt ∨ f.kind = .kBool) := by
  unfold schemaOKb at h
  simp only [Bool.and_eq_true, Bool.or_eq_true, List.all_eq_true,
    decide_eq_true_eq, Bool.not_eq_true', List.isEmpty_eq_false ] at h
  obtain ⟨⟨hne, hall⟩, hnd⟩ := h
  refine ⟨hne, hnd, fun f hf => ?_⟩
  obtain ⟨⟨⟨hn, he⟩, ha⟩, hk⟩ := hall f hf
  exact ⟨hn, he, ha, or_assoc.mp hk⟩

/-- The components of the record validity condition. -/
theorem recOKb_parts (schema : Schema) (r : Rec) (h : recOKb schema r = true) :
    r.length = schema.length ∧
    ∀ p ∈ schema.zip r, valOKb p.1.kind p.2 = true := by
  unfold recOKb at h
  simp only [Bool.and_eq_true, List.all_eq_true, decide_eq_true_eq] at h
  tauto

/-- C1 counterexample: for the single-string-field record type, the
record whose field is `" a"` does not round-trip: the default encoder
trims the token, so decoding the Marshal output yields `"a"`. -/
theorem C1_counterexample_whitespace_string :
    roundTrip schemaS [[.vStr (strOf " a")]] = .ok [[.vStr (strOf "a")]] ∧
    roundTrip schemaS [[.vStr (strOf " a")]] ≠ .ok [[.vStr (strOf " a")]] := by
  decide

/-- C1 (amended): for every record type with string, 64-bit-integer and
boolean fields and every non-empty record sequence whose string fields are
trim-stable and free of separator, terminator and boundary/doubled quote
characters, whose integers are in range, and whose rendered lines are
non-blank and not comment-like, `Unmarshal` of the `Marshal` output (both
under default configuration) reproduces the sequence field-for-field. -/
theorem C1_roundTrip (schema : Schema) (recs : List Rec)
    (hs : schemaOKb schema = true)
    (hr : ∀ r ∈ recs, recOKb schema r = true)
    (hl : ∀ r ∈ recs, recLineOKb schema r = true)
    (hne : recs ≠ []) :
    roundTrip schema recs = .ok recs := by
  obtain ⟨hsne, hnd, hfields⟩ := schemaOKb_parts schema hs
  have hel : ∀ f ∈ schema, f.elemF = true := fun f hf => (hfields f hf).2.1
  have hna : ∀ f ∈ schema, f.anyF = false := fun f hf => (hfields f hf).2.2.1
  have hkinds : ∀ f ∈ schema,
      f.kind = .kStr ∨ f.kind = .kInt ∨ f.kind = .kBool :=
    fun f hf => (hfields f hf).2.2.2
  have hnames : ∀ n ∈ schema.map (·.name), nameOKb n = true := by
    intro n hn
    simp only [List.mem_map] at hn
    obtain ⟨f, hf, rfl⟩ := hn
    exact (hfields f hf).1
  have hlenr : ∀ r ∈ recs, r.length = schema.length :=
    fun r h => (recOKb_parts schema r (hr r h)).1
  have hvalr : ∀ r ∈ recs, ∀ p ∈ schema.zip r, valOKb p.1.kind p.2 = true :=
    fun r h => (recOKb_parts schema r (hr r h)).2
  have hms : ∀ r ∈ recs, ∀ p ∈ schema.zip r,
      ∃ s, marshalSimple p.2 = .ok s := by
    intro r h p hp
    exact (renderTok_ok p.1 p.2 p.1.name
      (hkinds p.1 (List.of_mem_zip hp).1) (hvalr r h p hp)).2.2
  -- the encoder output
  have hout := encode_eval schema recs hnd hel hms hlenr hne
  -- per-record facts
  have htoksOK : ∀ r ∈ recs, ∀ t ∈ renderToks schema r, strOKb t = true :=
    fun r h => renderToks_strOK schema r hkinds (hvalr r h)
  have hlineOK : ∀ r ∈ recs, renderLine schema r ≠ [] ∧
      ['#'].isPrefixOf (renderLine schema r) = false := by
    intro r h
    have hlb := hl r h
    unfold recLineOKb encHeaderOf at hlb
    rw [encTokens_eval schema r hnd hel (hms r h) schema [] [] r rfl rfl rfl
      (hlenr r h).symm] at hlb
    simp only [Bool.and_eq_true, Bool.not_eq_true', decide_eq_true_eq,
      List.isEmpty_eq_false] at hlb
    exact ⟨by simpa [renderLine] using hlb.1, by simpa [renderLine] using hlb.2⟩
  have hum : ∀ r ∈ recs, ∀ ln,
      unmarshal defDec schema (schema.map (·.name)) ln (zeroRec schema)
        (renderLine schema r) = (r, none) := by
    intro r h ln
    exact unmarshal_renderLine schema r ln hnd hna hkinds (hvalr r h) hsne
      (hlenr r h)
  -- names of the header line
  have hnames_ne : schema.map (·.name) ≠ [] := by
    intro hcon
    exact hsne (List.map_eq_nil_iff.mp hcon)
  have hhdr := decodeHeader_names (schema.map (·.name)) hnames_ne hnames
  -- the line structure of the output
  have hlines : goLines (joinLines (joinSep ',' (schema.map (·.name)) ::
      recs.map (renderLine schema))) =
      joinSep ',' (schema.map (·.name)) :: recs.map (renderLine schema) := by
    apply goLines_joinLines _ (by simp)
    intro l hl2
    simp only [List.mem_cons, List.mem_map] at hl2
    rcases hl2 with rfl | ⟨r, hrm, rfl⟩
    · exact joinSep_line_clean _ (fun n hn =>
        ⟨(nameOKb_parts n (hnames n hn)).2.2.2.1,
         (nameOKb_parts n (hnames n hn)).2.2.2.2.1⟩)
    · exact joinSep_line_clean _ (fun t ht =>
        ⟨(strOKb_parts t (htoksOK r hrm t ht)).2.2.1,
         (strOKb_parts t (htoksOK r hrm t ht)).2.2.2.1⟩)
  -- header line is non-blank and not a comment
  obtain ⟨n0, names', hn0⟩ : ∃ n0 names',
      schema.map (·.name) = n0 :: names' := by
    cases hx : schema.map (·.name) with
    | nil => exact absurd hx hnames_ne
    | cons a b => exact ⟨a, b, rfl⟩
  have hn0ok := nameOKb_parts n0 (hnames n0 (by rw [hn0]; simp))
  have hhdr_ne : joinSep ',' (schema.map (·.name)) ≠ [] := by
    rw [hn0]
    exact joinSep_ne_nil ',' n0 names' hn0ok.1
  have hhdr_nc : ['#'].isPrefixOf (joinSep ',' (schema.map (·.name))) = false := by
    rw [hn0, single_isPrefixOf_joinSep '#' ',' n0 names' hn0ok.1]
    exact hn0ok.2.2.2.2.2
  -- assemble
  unfold roundTrip marshalTop
  rw [hout]
  unfold unmarshalTop decode
  simp only [show defDec.readHeader = true from rfl, Bool.not_true,
    Bool.false_eq_true, if_false]
  rw [hlines]
  simp only [decodeLines]
  rw [if_neg hhdr_ne]
  rw [if_neg (by rw [show defDec.comment = '#' from rfl]; simp [hhdr_nc])]
  rw [if_pos (by exact ⟨by trivial, by trivial⟩)]
  rw [hhdr]
  have := decodeLines_records schema (schema.map (·.name)) recs [] 1
    hnames_ne (fun r h => ⟨(hlineOK r h).1, (hlineOK r h).2, hum r h⟩)
  simpa using this

/-- C1 witness: the amended statement instantiated at the three-field
schema `s,b,i` with the record `Hello,true,42`. -/
theorem C1_witness :
    schemaOKb schemaA = true ∧
    (∀ r ∈ [recA], recOKb schemaA r = true) ∧
    (∀ r ∈ [recA], recLineOKb schemaA r = true) ∧
    roundTrip schemaA [recA] = .ok [recA] :=
  ⟨by decide, by decide, by decide,
   C1_roundTrip schemaA [recA] (by decide) (by decide) (by decide)
     (by decide)⟩


end GoCsv
